import Mathlib

/-!
Verification development for the skillet CLI source resolution and lockfile core.

The TypeScript sources are shallowly embedded as executable Lean definitions:

* JS strings are Lean `String`s; the JS string operations used by the code
  (`replace(/\\/g, "/")`, `split`, `startsWith`, `includes`, `trim`,
  `toLowerCase`, `join`) are modelled at the character-list level so that all
  definitions reduce in the kernel.
* `localeCompare` is modelled as code-point lexicographic comparison (the
  default-locale collator agrees with code-point order on the ASCII
  identifiers, URLs and digests this program compares).
* Byte buffers / stream chunks are lists of `Nat`.
* Fallible functions return `Except`; thrown error classes become structures
  carrying their message.
* External effects (HTTP fetch bodies, `git ls-remote` output, `tar`/`unzip`
  listings, filesystem stat results, sha256 digests) are injected as explicit
  parameters, following the capability-style boundary the code itself uses
  (`symlinkFn`, injected runners).  Trace booleans record which side effects
  (writing the archive file, running extraction, copying into storage) the
  control flow has reached.
-/

namespace Skillet

/-! ## Character-level string primitives -/

/-- JS `s.replace(/\\/g, "/")` at the character level. -/
def sanitizeChars (cs : List Char) : List Char :=
  cs.map fun c => if c = '\\' then '/' else c

/-- `String` wrapper of `sanitizeChars`. -/
def slashify (s : String) : String := ⟨sanitizeChars s.data⟩

/-- JS `s.split(sep)` for a single-character separator (keeps empty pieces). -/
def splitChar (sep : Char) : List Char → List (List Char)
  | [] => [[]]
  | c :: rest =>
    match splitChar sep rest with
    | [] => [[]]
    | p :: ps => if c = sep then [] :: p :: ps else (c :: p) :: ps

/-- JS `Array.prototype.join(sep)` for a single-character separator. -/
def joinChars (sep : Char) : List (List Char) → List Char
  | [] => []
  | [p] => p
  | p :: rest => p ++ sep :: joinChars sep rest

/-- JS `pre + rest` test `s.startsWith(pre)` at the character level. -/
def chStartsWith (cs pre : List Char) : Bool := pre.isPrefixOf cs

/-- JS `s.startsWith(pre)`. -/
def strStartsWith (s pre : String) : Bool := pre.data.isPrefixOf s.data

/-- JS `s.endsWith(suf)`. -/
def strEndsWith (s suf : String) : Bool := suf.data.isSuffixOf s.data

/-- Whether `pat` occurs as a contiguous run inside `cs` (JS `s.includes(pat)`). -/
def hasInfixChars (pat : List Char) : List Char → Bool
  | [] => pat.isEmpty
  | c :: rest => pat.isPrefixOf (c :: rest) || hasInfixChars pat rest

/-- JS `s.includes(pat)`. -/
def strContains (s pat : String) : Bool := hasInfixChars pat.data s.data

/-- JS `s.trim()` (restricted to ASCII whitespace, which is all the code meets). -/
def jsTrim (s : String) : String :=
  ⟨((s.data.dropWhile Char.isWhitespace).reverse.dropWhile Char.isWhitespace).reverse⟩

/-- JS `s.toLowerCase()` (ASCII case mapping). -/
def jsToLower (s : String) : String := ⟨s.data.map Char.toLower⟩

/-- JS `s.split(/\r?\n/)`: split on `\n`, dropping a `\r` that immediately
precedes the `\n`.  The accumulator holds the current line reversed. -/
def splitLinesAux : List Char → List Char → List String
  | [], cur => [⟨cur.reverse⟩]
  | '\n' :: rest, cur =>
    (⟨(match cur with | '\r' :: cur2 => cur2 | cur2 => cur2).reverse⟩ : String)
      :: splitLinesAux rest []
  | c :: rest, cur => splitLinesAux rest (c :: cur)

/-- JS `s.split(/\r?\n/)`. -/
def splitLinesRN (s : String) : List String := splitLinesAux s.data []

/-- JS `Array.prototype.join("\n")`. -/
def joinWithNewline : List String → String
  | [] => ""
  | [s] => s
  | s :: rest => s ++ "\n" ++ joinWithNewline rest

/-- JS `Array.prototype.join("|")`. -/
def joinWithBar : List String → String
  | [] => ""
  | [s] => s
  | s :: rest => s ++ "|" ++ joinWithBar rest

/-- Three-way comparison of single items, from an order. -/
def charCmp (a b : Char) : Ordering :=
  if a < b then .lt else if b < a then .gt else .eq

/-- Lexicographic extension of a three-way comparison to lists (shorter
prefixes first). -/
def lexCmp (cmp : α → α → Ordering) : List α → List α → Ordering
  | [], [] => .eq
  | [], _ :: _ => .lt
  | _ :: _, [] => .gt
  | a :: as, b :: bs =>
    match cmp a b with
    | .eq => lexCmp cmp as bs
    | o => o

/-- Code-point comparison of character lists; models JS `localeCompare`
(which agrees with code-point order on the ASCII data this program sorts). -/
def cmpChars : List Char → List Char → Ordering := lexCmp charCmp

/-- JS `a.localeCompare(b)` modelled as code-point comparison. -/
def cmpStr (a b : String) : Ordering := cmpChars a.data b.data

/-- The `for (const key of sortKeys)` comparator loop of `generateLockfile`:
first nonzero `localeCompare` over a fixed list of key strings. -/
def cmpStrList : List String → List String → Ordering := lexCmp cmpStr

/-! ## Node `path.posix.normalize` -/

/-- The component resolution loop of Node's `normalizeString`: empty and `.`
components are dropped; `..` pops a previous real component, or (for relative
paths, `allowAbove = true`) accumulates at the front.  `acc` is reversed. -/
def normComponents (allowAbove : Bool) : List (List Char) → List (List Char) → List (List Char)
  | [], acc => acc.reverse
  | c :: rest, acc =>
    if c = [] ∨ c = ['.'] then normComponents allowAbove rest acc
    else if c = ['.', '.'] then
      match acc with
      | a :: tl =>
        if a = ['.', '.'] then normComponents allowAbove rest (c :: a :: tl)
        else normComponents allowAbove rest tl
      | [] => normComponents allowAbove rest (if allowAbove then [['.', '.']] else [])
    else normComponents allowAbove rest (c :: acc)

/-- Node `path.posix.normalize` at the character level. -/
def posixNormalizeChars (cs : List Char) : List Char :=
  match cs with
  | [] => ['.']
  | c :: _ =>
    let isAbs : Bool := c == '/'
    let trailing : Bool := cs.getLast? == some '/'
    match normComponents (!isAbs) (splitChar '/' cs) [] with
    | [] => if isAbs then ['/'] else if trailing then ['.', '/'] else ['.']
    | comps =>
      let core := joinChars '/' comps ++ (if trailing then ['/'] else [])
      if isAbs then '/' :: core else core

/-- Node `path.posix.normalize`. -/
def posixNormalize (s : String) : String := ⟨posixNormalizeChars s.data⟩

/-- Node `path.basename` for POSIX paths: the final path component, ignoring
trailing separators. -/
def posixBasename (s : String) : String :=
  ⟨(((s.data.reverse.dropWhile fun c => c == '/').takeWhile fun c => !(c == '/')).reverse)⟩

/-- The JS regex test `/^[a-zA-Z]/`-component of a drive-letter check. -/
def isAsciiLetter (c : Char) : Bool :=
  (decide ('a' ≤ c) && decide (c ≤ 'z')) || (decide ('A' ≤ c) && decide (c ≤ 'Z'))

/-- The JS regex test `/^[a-zA-Z]:/` (Windows drive-letter prefix). -/
def isDriveLetterPrefixed (cs : List Char) : Bool :=
  match cs with
  | c :: d :: _ => isAsciiLetter c && d == ':'
  | _ => false

/-! ## HTTP archive resolver (`src/resolvers/http-archive.ts`) -/

/-- The `ArchiveResolveError` class of `http-archive.ts`. -/
structure ArchiveResolveError where
  message : String
deriving DecidableEq

/-- Outcome of the entry-path checks shared by `validateArchiveEntryPath`
(`http-archive.ts`) and `validateTarEntry` (`oci.ts`): accepted, rejected as
an absolute path, or rejected as a traversal escaping the extraction root. -/
inductive EntryVerdict where
  | ok
  | absolute
  | traversal
deriving DecidableEq

/-- The decision cascade of `validateArchiveEntryPath` on the
backslash-sanitized path: the empty path is accepted; absolute paths (POSIX
`/` or Windows drive-letter) are rejected; a POSIX-normalized form that is
`..`, starts with `../` or contains `/../` is rejected. -/
def classifyArchiveEntry (sanitized : List Char) : EntryVerdict :=
  if sanitized.isEmpty then .ok
  else if chStartsWith sanitized ['/'] || isDriveLetterPrefixed sanitized then .absolute
  else if posixNormalizeChars sanitized == ['.', '.'] ||
      chStartsWith (posixNormalizeChars sanitized) ['.', '.', '/'] ||
      hasInfixChars ['/', '.', '.', '/'] (posixNormalizeChars sanitized) then .traversal
  else .ok

/-- `validateArchiveEntryPath` from `http-archive.ts`; the thrown error
carries the original (unsanitized) entry path. -/
def validateArchiveEntryPath (entryPath : String) : Except ArchiveResolveError Unit :=
  match classifyArchiveEntry (sanitizeChars entryPath.data) with
  | .ok => .ok ()
  | .absolute => .error ⟨"Archive entry uses absolute path: " ++ entryPath⟩
  | .traversal => .error ⟨"Archive entry escapes extraction root: " ++ entryPath⟩

/-- The `for (const entry of entries) validateArchiveEntryPath(entry)` loop of
`resolveHttpArchive`; the first thrown error aborts the loop. -/
def validateEntries : List String → Except ArchiveResolveError Unit
  | [] => .ok ()
  | e :: rest =>
    match validateArchiveEntryPath e with
    | .error err => .error err
    | .ok _ => validateEntries rest

/-- The streaming read loop of `downloadArchive`: each chunk is appended and
counted, and the loop throws the instant the running total exceeds the cap.
Returns the result together with the number of chunks consumed from the
stream. -/
def downloadLoop (maxDownloadBytes : Nat) :
    List (List Nat) → Nat → List (List Nat) → Nat →
    Except ArchiveResolveError (List Nat) × Nat
  | [], _, acc, consumed => (.ok acc.reverse.flatten, consumed)
  | chunk :: rest, totalBytes, acc, consumed =>
    if maxDownloadBytes < totalBytes + chunk.length then
      (.error ⟨"Archive download exceeds limit (" ++ toString maxDownloadBytes ++ " bytes)"⟩,
        consumed + 1)
    else downloadLoop maxDownloadBytes rest (totalBytes + chunk.length) (chunk :: acc)
      (consumed + 1)

/-- `downloadArchive` from `http-archive.ts`, with the HTTP response body
injected as its list of stream chunks.  (The pre-loop failure modes — fetch
rejection, non-OK status, missing body — abort before the loop and are
outside the entry/byte-cap claims modelled here.) -/
def downloadArchive (chunks : List (List Nat)) (maxDownloadBytes : Nat) :
    Except ArchiveResolveError (List Nat) × Nat :=
  downloadLoop maxDownloadBytes chunks 0 [] 0

/-- Archive formats recognized by the resolver. -/
inductive ArchiveFormat where
  | zip
  | targz
deriving DecidableEq

/-- `detectArchiveFormat` from `http-archive.ts`: URL suffix, then
content-type, then magic bytes (gzip `1F 8B`, then a zip local-file-header
signature needing at least four bytes). -/
def detectArchiveFormat (finalUrl contentType : String) (buffer : List Nat) :
    Except ArchiveResolveError ArchiveFormat :=
  let lowerUrl := jsToLower finalUrl
  let lowerContentType := jsToLower contentType
  if strEndsWith lowerUrl ".tar.gz" || strEndsWith lowerUrl ".tgz" then .ok .targz
  else if strEndsWith lowerUrl ".zip" then .ok .zip
  else if strContains lowerContentType "application/zip" then .ok .zip
  else if strContains lowerContentType "application/gzip" ||
      strContains lowerContentType "application/x-gzip" then .ok .targz
  else
    match buffer with
    | b0 :: b1 :: rest =>
      if b0 == 0x1f && b1 == 0x8b then .ok .targz
      else
        match rest with
        | b2 :: b3 :: _ =>
          if b0 == 0x50 && b1 == 0x4b && (b2 == 0x03 || b2 == 0x05 || b2 == 0x07) &&
              (b3 == 0x04 || b3 == 0x06 || b3 == 0x08) then .ok .zip
          else .error ⟨"Unable to detect archive format (expected .zip or .tar.gz)"⟩
        | _ => .error ⟨"Unable to detect archive format (expected .zip or .tar.gz)"⟩
    | _ => .error ⟨"Unable to detect archive format (expected .zip or .tar.gz)"⟩

/-- The external inputs of one `resolveHttpArchive` run: the response body
stream, the response metadata, the entry listing the external `tar`/`unzip`
produces for the written archive, and the extracted tree's total size. -/
structure HttpArchiveEnv where
  chunks : List (List Nat)
  contentType : String
  finalUrl : String
  entries : List String
  extractedBytes : Nat
deriving DecidableEq

/-- Which side effects a `resolveHttpArchive` run has performed:
`archiveWritten` is the `fs.writeFileSync(archivePath, …)` call and
`extracted` the `extractArchive` call. -/
structure HttpArchiveTrace where
  archiveWritten : Bool
  extracted : Bool
deriving DecidableEq

/-- The tail of `resolveHttpArchive` after a successful entry validation:
`extractArchive` runs, then the extracted-size cap is enforced. -/
def resolvePostValidate (env : HttpArchiveEnv) (maxExtractedBytes : Nat) :
    Except ArchiveResolveError Unit × HttpArchiveTrace :=
  if env.extractedBytes > maxExtractedBytes then
    (.error ⟨"Extracted archive size exceeds limit (" ++
      toString maxExtractedBytes ++ " bytes)"⟩, ⟨true, true⟩)
  else (.ok (), ⟨true, true⟩)

/-- The tail of `resolveHttpArchive` after the archive file has been written:
entry listing, entry-count cap, per-entry path validation, then extraction. -/
def resolvePostWrite (env : HttpArchiveEnv) (maxEntries maxExtractedBytes : Nat) :
    Except ArchiveResolveError Unit × HttpArchiveTrace :=
  if env.entries.length > maxEntries then
    (.error ⟨"Archive entry count exceeds limit (" ++ toString maxEntries ++ ")"⟩,
      ⟨true, false⟩)
  else
    match validateEntries env.entries with
    | .error e => (.error e, ⟨true, false⟩)
    | .ok _ => resolvePostValidate env maxExtractedBytes

/-- The tail of `resolveHttpArchive` after a successful download: format
detection, then the `fs.writeFileSync` of the archive and everything after. -/
def resolveAfterDownload (env : HttpArchiveEnv) (maxEntries maxExtractedBytes : Nat)
    (buffer : List Nat) : Except ArchiveResolveError Unit × HttpArchiveTrace :=
  match detectArchiveFormat env.finalUrl env.contentType buffer with
  | .error e => (.error e, ⟨false, false⟩)
  | .ok _format => resolvePostWrite env maxEntries maxExtractedBytes

/-- `resolveHttpArchive` from `http-archive.ts` (the scratch-directory setup,
which cannot fail the run, is elided): download with the byte cap, detect the
format, write the archive file, list entries, enforce the entry-count cap,
validate every entry path, extract, then enforce the extracted-size cap.  The
trace records which effects ran. -/
def resolveHttpArchiveModel (env : HttpArchiveEnv)
    (maxDownloadBytes maxEntries maxExtractedBytes : Nat) :
    Except ArchiveResolveError Unit × HttpArchiveTrace :=
  match (downloadArchive env.chunks maxDownloadBytes).1 with
  | .error e => (.error e, ⟨false, false⟩)
  | .ok buffer => resolveAfterDownload env maxEntries maxExtractedBytes buffer

/-- An entry that claim C1 calls unsafe: absolute once backslashes are
normalized (POSIX `/` or a Windows drive letter), or with a POSIX-normalized
form that is, or begins with, a `..` traversal component. -/
def isUnsafeEntry (e : String) : Bool :=
  chStartsWith (sanitizeChars e.data) ['/'] || isDriveLetterPrefixed (sanitizeChars e.data) ||
    (posixNormalizeChars (sanitizeChars e.data) == ['.', '.'] ||
      chStartsWith (posixNormalizeChars (sanitizeChars e.data)) ['.', '.', '/'])

/-! ## OCI resolver (`src/resolvers/oci.ts`) -/

/-- The `OciResolveError` class of `oci.ts`. -/
structure OciResolveError where
  message : String
deriving DecidableEq

/-- The decision cascade of `validateTarEntry` on the backslash-sanitized
path: same absolute/traversal checks as the archive validator, but with no
special case for the empty path. -/
def classifyTarEntry (normalized : List Char) : EntryVerdict :=
  if chStartsWith normalized ['/'] || isDriveLetterPrefixed normalized then .absolute
  else if posixNormalizeChars normalized == ['.', '.'] ||
      chStartsWith (posixNormalizeChars normalized) ['.', '.', '/'] ||
      hasInfixChars ['/', '.', '.', '/'] (posixNormalizeChars normalized) then .traversal
  else .ok

/-- `validateTarEntry` from `oci.ts`; the thrown error carries the original
entry path. -/
def validateTarEntry (entry : String) : Except OciResolveError Unit :=
  match classifyTarEntry (sanitizeChars entry.data) with
  | .ok => .ok ()
  | .absolute => .error ⟨"Unsafe absolute path in OCI layer: " ++ entry⟩
  | .traversal => .error ⟨"Unsafe traversal path in OCI layer: " ++ entry⟩

/-- A manifest layer descriptor as `resolveOciSource` inspects it: its
`digest` field when that field is a string (`none` models a missing or
non-string digest, both of which the code rejects alike). -/
structure OciLayerDesc where
  digest : Option String
deriving DecidableEq

/-- An OCI manifest as `resolveOciSource` inspects it after JSON parsing:
`artifactType` is the declared artifact type when it is a string (`none`
models a missing or non-string field, which the code rejects alike), and
`layers` the declared layer list. -/
structure OciManifest where
  artifactType : Option String
  layers : List OciLayerDesc
deriving DecidableEq

/-- The fixed skill artifact media type constant of `oci.ts`. -/
def SKILLET_ARTIFACT_TYPE : String := "application/vnd.skillet.skill.v1+tar"

/-- The manifest-validation phase of `resolveOciSource`: the declared
artifact type must equal `SKILLET_ARTIFACT_TYPE` exactly, there must be at
least one layer, and the first layer must carry a `sha256:`-prefixed string
digest.  Returns the first layer on success. -/
def resolveOciManifestPhase (m : OciManifest) : Except OciResolveError OciLayerDesc :=
  if m.artifactType ≠ some SKILLET_ARTIFACT_TYPE then
    .error ⟨"Unsupported OCI artifact type: " ++
      (match m.artifactType with | some t => t | none => "missing")⟩
  else
    match m.layers with
    | [] => .error ⟨"Manifest must include at least one layer"⟩
    | firstLayer :: _ =>
      match firstLayer.digest with
      | none => .error ⟨"Manifest layer digest is invalid"⟩
      | some d =>
        if strStartsWith d "sha256:" then .ok firstLayer
        else .error ⟨"Manifest layer digest is invalid"⟩

/-- The `for (const entry of tarEntries) validateTarEntry(entry)` loop of
`resolveOciSource`. -/
def validateTarEntries : List String → Except OciResolveError Unit
  | [] => .ok ()
  | e :: rest =>
    match validateTarEntry e with
    | .error err => .error err
    | .ok _ => validateTarEntries rest

/-- `resolveOciSource` from `oci.ts` after the manifest fetch and JSON-shape
checks, with the externally produced inputs injected: the parsed manifest,
the listing the external `tar` produces for the fetched layer blob, and the
number of `SKILL.md`-bearing directories found after extraction. -/
def resolveOciSourceModel (m : OciManifest) (tarEntries : List String)
    (skillDirCount : Nat) : Except OciResolveError Unit :=
  match resolveOciManifestPhase m with
  | .error e => .error e
  | .ok _ =>
    match validateTarEntries tarEntries with
    | .error e => .error e
    | .ok _ =>
      if skillDirCount ≠ 1 then
        .error ⟨"OCI artifact must contain exactly one skill, found " ++
          toString skillDirCount⟩
      else .ok ()

/-! ## Skill descriptor parser (`src/skills/skill.ts`) -/

/-- The `SkillParseError` class of `skill.ts`. -/
structure SkillParseError where
  message : String
  field : Option String
deriving DecidableEq

/-- The `for (let i = 1; …)` scan of `splitFrontmatter`, relative to the
lines after the first: index of the first line whose trim is `---`. -/
def findCloseIdx : List String → Option Nat
  | [] => none
  | l :: rest =>
    if jsTrim l == "---" then some 0
    else
      match findCloseIdx rest with
      | some j => some (j + 1)
      | none => none

/-- `splitFrontmatter` from `skill.ts`: the lines of the markdown (split on
`/\r?\n/`) must open with a line whose trim is exactly `---` at index 0, and
some later line whose trim is `---` closes the block; the lines strictly
between are the frontmatter, the lines after the closing delimiter the body
(both re-joined with `\n`). -/
def splitFrontmatter (markdown : String) : Except SkillParseError (String × String) :=
  match splitLinesRN markdown with
  | [] => .error ⟨"SKILL.md must start with frontmatter '---' delimiter", none⟩
  | l0 :: rest =>
    if jsTrim l0 ≠ "---" then
      .error ⟨"SKILL.md must start with frontmatter '---' delimiter", none⟩
    else
      match findCloseIdx rest with
      | none => .error ⟨"SKILL.md frontmatter must be closed with '---' delimiter", none⟩
      | some j => .ok (joinWithNewline (rest.take j), joinWithNewline (rest.drop (j + 1)))

/-! ## Check command (`src/commands/check.ts`) -/

/-- A lockfile source entry as `check.ts` reads it back from YAML. -/
structure LockfileSourceEntry where
  type : String
  url : String
  ref : Option String
  digest : Option String
  installMethod : String
  skills : List String
  agents : List String
deriving DecidableEq

/-- The four check states of `check.ts`. -/
inductive CheckStatus where
  | upToDate
  | outdated
  | unsupported
  | error
deriving DecidableEq

/-- The `{status, latestDigest?, message?}` record `checkSource` returns. -/
structure CheckOutcome where
  status : CheckStatus
  latestDigest : Option String
  message : Option String
deriving DecidableEq

/-- JS truthiness of an optional string field (`undefined` and `""` are
falsy). -/
def truthy : Option String → Bool
  | none => false
  | some s => !s.data.isEmpty

/-- `getLatestGitDigest` from `check.ts`, with the `git ls-remote` subprocess
injected as a function from `(url, requestedRef)` to its trimmed stdout (or
the wrapped failure message).  The requested ref is the recorded ref when it
is a nonempty string, else `HEAD`; the first nonblank output line's leading
whitespace-delimited token must be at least 40 characters long. -/
def getLatestGitDigest (url : String) (ref : Option String)
    (lsRemote : String → String → Except String String) : Except String String :=
  match
    lsRemote url
      (match ref with
        | some r => if r.data.isEmpty then "HEAD" else r
        | none => "HEAD")
  with
  | .error e => .error e
  | .ok output =>
    match (splitLinesRN output).find? (fun line => !(jsTrim line).data.isEmpty) with
    | none =>
      .error ("Unable to resolve latest git digest for " ++ url)
    | some firstLine =>
      let digest : String := ⟨firstLine.data.takeWhile fun c => !c.isWhitespace⟩
      if digest.data.length < 40 then
        .error ("Unexpected git ls-remote output for " ++ url)
      else .ok digest

/-- `checkSource` from `check.ts`, with the git subprocess and the OCI
digest query injected.  A `git` source is `outdated` exactly when a truthy
digest is recorded and the freshly queried digest differs; the queried digest
is reported either way; query failures map to `error`; non-git/non-oci types
are `unsupported`. -/
def checkSourceModel (source : LockfileSourceEntry)
    (lsRemote : String → String → Except String String)
    (ociLatest : Except String String) : CheckOutcome :=
  if source.type = "git" then
    match getLatestGitDigest source.url source.ref lsRemote with
    | .ok latestDigest =>
      if truthy source.digest && !(source.digest == some latestDigest) then
        ⟨.outdated, some latestDigest, none⟩
      else ⟨.upToDate, some latestDigest, none⟩
    | .error e => ⟨.error, none, some e⟩
  else if source.type = "oci" then
    match ociLatest with
    | .ok latestDigest =>
      if truthy source.digest && !(source.digest == some latestDigest) then
        ⟨.outdated, some latestDigest, none⟩
      else ⟨.upToDate, some latestDigest, none⟩
    | .error e => ⟨.error, none, some e⟩
  else ⟨.unsupported, none,
    some ("Source type '" ++ source.type ++ "' is not checked for updates")⟩

/-! ## Installer (`src/resolvers/git.ts`, `installSkill`) -/

/-- What `lstat` can report at the target install path. -/
inductive FsKind where
  | file
  | dir
  | symlink
  | other
deriving DecidableEq

/-- The `InstallConflictError` class of `git.ts`: a message plus the
offending path. -/
structure InstallConflictError where
  message : String
  path : String
deriving DecidableEq

/-- `symlink` or `copy`. -/
inductive InstallMethod where
  | symlink
  | copy
deriving DecidableEq

/-- The result record of `installSkill`. -/
structure InstallSkillResult where
  skillName : String
  storagePath : String
  installedPath : String
  method : InstallMethod
  changed : Bool
  message : String
deriving DecidableEq

/-- The filesystem facts one `installSkill` run observes, with paths taken as
already resolved (`path.resolve` is the identity on absolute inputs):
whether the source path is a directory, whether the target skills directory
exists and is a directory, what `lstat` reports at the computed install path
(`none` = nothing there), and whether the symlink attempt of
`replaceSymlinkAtomically` succeeds (`false` models the catch-and-fall-back
to copy). -/
structure InstallEnv where
  sourceSkillPath : String
  storageRoot : String
  targetSkillsDir : String
  preferCopy : Bool
  sourceIsDirectory : Bool
  targetDirExists : Bool
  targetDirIsDirectory : Bool
  installedPathKind : Option FsKind
  symlinkSucceeds : Bool
deriving DecidableEq

/-- `assertReplaceableInstallPath` from `git.ts`: nothing at the path, or a
directory, or a symlink, is replaceable; anything else is a conflict carrying
the install path. -/
def assertReplaceableInstallPath (installPath : String) (kind : Option FsKind) :
    Except InstallConflictError Unit :=
  match kind with
  | none => .ok ()
  | some k =>
    if k = FsKind.dir ∨ k = FsKind.symlink then .ok ()
    else
      .error ⟨"Install conflict at " ++ installPath ++
        ": existing path is not a directory or symlink", installPath⟩

/-- `installSkill` from `git.ts`, with the sha256 of the source id injected
(`digestSourceId` calls out to `node:crypto`).  The boolean in the result
records whether `replaceDirectoryAtomically` copied anything into the
storage root.  Beyond the modelled symlink fallback, the remaining
filesystem calls are assumed not to throw. -/
def installSkillModel (env : InstallEnv) (sourceIdDigest : String) :
    Except InstallConflictError InstallSkillResult × Bool :=
  if !env.sourceIsDirectory then
    (.error ⟨"Source skill path is not a directory: " ++ env.sourceSkillPath,
      env.sourceSkillPath⟩, false)
  else if env.targetDirExists && !env.targetDirIsDirectory then
    (.error ⟨"Target skills directory must be a directory: " ++ env.targetSkillsDir,
      env.targetSkillsDir⟩, false)
  else
    match
      assertReplaceableInstallPath
        (env.targetSkillsDir ++ "/" ++ posixBasename env.sourceSkillPath)
        env.installedPathKind
    with
    | .error e => (.error e, false)
    | .ok _ =>
      let skillName := posixBasename env.sourceSkillPath
      let storagePath := env.storageRoot ++ "/" ++ sourceIdDigest ++ "/" ++ skillName
      let installedPath := env.targetSkillsDir ++ "/" ++ skillName
      let method : InstallMethod :=
        if env.preferCopy then .copy
        else if env.symlinkSucceeds then .symlink
        else .copy
      let action := match method with | .symlink => "symlinked" | .copy => "copied"
      (.ok
        { skillName := skillName
          storagePath := storagePath
          installedPath := installedPath
          method := method
          changed := true
          message := action ++ " " ++ skillName ++ " to " ++ installedPath }, true)

/-! ## Lockfile generator (`src/lockfile/generate-lock.ts`) -/

/-- The fields of a `.skillet-source.json` sidecar after `readSourceMetadata`
(each field is a string or absent; `readOptionalString` maps non-strings and
blank strings to absent, and a missing or malformed sidecar yields the empty
record). -/
structure SourceMetadata where
  type : Option String
  url : Option String
  ref : Option String
  digest : Option String
  installMethod : Option String
deriving DecidableEq

/-- One directory entry of an agent skills directory as the generator
observes it: its name, whether `listSkillDirectories` keeps it (a directory,
or a symlink resolving to one), whether `lstat` reports the entry itself as a
symlink, whether `SKILL.md` exists as a file inside, the skill name
`parseSkillMarkdown` returns for it (`none` models a parse failure, which the
scan skips), and the sidecar metadata. -/
structure SkillDirEntry where
  name : String
  isDirLike : Bool
  isSymbolicLink : Bool
  hasSkillFile : Bool
  parsedName : Option String
  metadata : SourceMetadata
deriving DecidableEq

/-- One of the five per-agent skills directories scanned by
`generateLockfile`: the agent identifier and directory path from
`AGENT_SKILL_DIRS`, whether the directory exists, and its entries in
whatever order `readdirSync` returns them. -/
structure AgentDir where
  agent : String
  dirPath : String
  present : Bool
  entries : List SkillDirEntry
deriving DecidableEq

/-- The `source` record `generateLockfile` builds for one installed skill
(its grouping identity). -/
structure SourceInfo where
  type : String
  url : String
  ref : Option String
  digest : Option String
  installMethod : String
deriving DecidableEq

/-- One installed skill as collected by the scan loop of `generateLockfile`:
the owning agent, the parsed skill name, and its source identity. -/
structure InstalledSkill where
  agent : String
  skillName : String
  source : SourceInfo
deriving DecidableEq

/-- JS `x ?? ""` on an optional string field (nullish coalescing: an empty
string present in the field is kept). -/
def orEmpty : Option String → String
  | none => ""
  | some s => s

/-- The grouping key of `generateLockfile`:
`[type, url, ref ?? "", digest ?? "", installMethod].join("|")`. -/
def groupKey (src : SourceInfo) : String :=
  joinWithBar [src.type, src.url, orEmpty src.ref, orEmpty src.digest, src.installMethod]

/-- The `localeCompare`-based comparator, as the relation `a ≤ b`. -/
def strLe (a b : String) : Prop := cmpStr a b ≠ Ordering.gt

instance : DecidableRel strLe := fun a b =>
  inferInstanceAs (Decidable (cmpStr a b ≠ Ordering.gt))

/-- `listSkillDirectories` sorts the kept entries by candidate path with
`localeCompare`; for a fixed parent directory this orders by entry name
(code-point comparison of equal-prefix paths reduces to their suffixes). -/
def entryLe (a b : SkillDirEntry) : Prop := strLe a.name b.name

instance : DecidableRel entryLe := fun a b => inferInstanceAs (Decidable (strLe a.name b.name))

/-- Strict version of `entryLe`. -/
def entryLt (a b : SkillDirEntry) : Prop := cmpStr a.name b.name = Ordering.lt

/-- `listSkillDirectories` from `generate-lock.ts`: keep directory-like
entries, sorted. -/
def listSkillDirectoriesModel (entries : List SkillDirEntry) : List SkillDirEntry :=
  List.insertionSort entryLe (entries.filter fun e => e.isDirLike)

/-- The body of the scan loop of `generateLockfile` for one candidate skill
directory: skip it without a `SKILL.md` file or when the parse fails;
otherwise build the installed-skill record with the `unknown` / `file://`
defaults for missing metadata and the symlink-derived default install
method. -/
def installedOfEntry (agent dirPath : String) (e : SkillDirEntry) : Option InstalledSkill :=
  if !e.hasSkillFile then none
  else
    match e.parsedName with
    | none => none
    | some skillName =>
      some
        { agent := agent
          skillName := skillName
          source :=
            { type := e.metadata.type.getD "unknown"
              url := e.metadata.url.getD ("file://" ++ (dirPath ++ "/" ++ e.name))
              ref := e.metadata.ref
              digest := e.metadata.digest
              installMethod :=
                e.metadata.installMethod.getD
                  (if e.isSymbolicLink then "symlink" else "copy") } }

/-- The scan of one agent skills directory. -/
def agentScan (d : AgentDir) : List InstalledSkill :=
  if !d.present then []
  else (listSkillDirectoriesModel d.entries).filterMap (installedOfEntry d.agent d.dirPath)

/-- The whole scan of `generateLockfile` over the agent directories in their
fixed `AGENT_SKILL_DIRS` order. -/
def scanInstalled (disk : List AgentDir) : List InstalledSkill :=
  (disk.map agentScan).flatten

/-- One value of the `groupedSources` map: the source record contributed by
the first skill inserted under the key, plus the accumulated skill-name and
agent sets (JS `Set` keeps insertion order and ignores duplicates). -/
structure SourceGroup where
  source : SourceInfo
  skills : List String
  agents : List String
deriving DecidableEq

/-- JS `Set.prototype.add` on an insertion-ordered duplicate-free list. -/
def setAdd (x : String) (l : List String) : List String :=
  if x ∈ l then l else l ++ [x]

/-- `grouped.skills.add(skillName); grouped.agents.add(config.agent)`. -/
def groupAddMember (g : SourceGroup) (s : InstalledSkill) : SourceGroup :=
  { g with skills := setAdd s.skillName g.skills, agents := setAdd s.agent g.agents }

/-- `groupedSources.set(key, grouped)` over the insertion-ordered map: update
in place when the key exists (JS `Map.set` keeps the original position), else
append a fresh group seeded with the skill's own source record. -/
def updateGroups (key : String) (s : InstalledSkill) :
    List (String × SourceGroup) → List (String × SourceGroup)
  | [] => [(key, groupAddMember ⟨s.source, [], []⟩ s)]
  | (k, g) :: rest =>
    if k = key then (k, groupAddMember g s) :: rest
    else (k, g) :: updateGroups key s rest

/-- The grouping loop of `generateLockfile` over all installed skills. -/
def groupInstalled (installed : List InstalledSkill) : List (String × SourceGroup) :=
  installed.foldl (fun gs s => updateGroups (groupKey s.source) s gs) []

/-- JS `Map.prototype.get` on the insertion-ordered association list. -/
def lookupG (key : String) : List (String × SourceGroup) → Option SourceGroup
  | [] => none
  | (k, g) :: rest => if k = key then some g else lookupG key rest

/-- A serialized lockfile source entry of `generate-lock.ts` (`ref` and
`digest` are omitted when the grouped value is falsy). -/
structure LockfileSource where
  type : String
  url : String
  ref : Option String
  digest : Option String
  installMethod : String
  skills : List String
  agents : List String
deriving DecidableEq

/-- The `.map` normalization step of `generateLockfile`: skills and agents
sorted with `localeCompare`, `ref`/`digest` kept only when truthy. -/
def normalizeGroup (g : SourceGroup) : LockfileSource :=
  { type := g.source.type
    url := g.source.url
    ref := if truthy g.source.ref then g.source.ref else none
    digest := if truthy g.source.digest then g.source.digest else none
    installMethod := g.source.installMethod
    skills := List.insertionSort strLe g.skills
    agents := List.insertionSort strLe g.agents }

/-- The five sort keys of the `.sort` comparator, with `?? ""` defaults. -/
def sortKeyList (e : LockfileSource) : List String :=
  [e.type, e.url, orEmpty e.ref, orEmpty e.digest, e.installMethod]

/-- The `.sort` comparator of `generateLockfile` as a relation: first
nonzero `localeCompare` over `(type, url, ref, digest, installMethod)`. -/
def lockSourceLe (a b : LockfileSource) : Prop :=
  cmpStrList (sortKeyList a) (sortKeyList b) ≠ Ordering.gt

instance : DecidableRel lockSourceLe := fun a b =>
  inferInstanceAs (Decidable (cmpStrList (sortKeyList a) (sortKeyList b) ≠ Ordering.gt))

/-- The sorted source list `generateLockfile` emits for a given scan. -/
def lockSources (installed : List InstalledSkill) : List LockfileSource :=
  List.insertionSort lockSourceLe
    ((groupInstalled installed).map fun kg => normalizeGroup kg.2)

/-- The lockfile document `{version: 1, sources}`. -/
structure LockfileDocument where
  version : Nat
  sources : List LockfileSource
deriving DecidableEq

/-- `generateLockfile` from disk state to the lockfile document. -/
def generateLockfileDoc (disk : List AgentDir) : LockfileDocument :=
  ⟨1, lockSources (scanInstalled disk)⟩

/-- Modelled from the spec: the YAML serialization (the external `yaml`
package's `stringify`) is missing from the sources; per the spec the document
"must serialize deterministically", so it is modelled as a deterministic pure
function of the document, rendered as a simple line-based YAML printer. -/
def renderLockfileSource (s : LockfileSource) : String :=
  "  - type: " ++ s.type ++ "\n    url: " ++ s.url ++
    (match s.ref with | some r => "\n    ref: " ++ r | none => "") ++
    (match s.digest with | some d => "\n    digest: " ++ d | none => "") ++
    "\n    installMethod: " ++ s.installMethod ++
    "\n    skills:" ++ String.join (s.skills.map fun n => "\n      - " ++ n) ++
    "\n    agents:" ++ String.join (s.agents.map fun n => "\n      - " ++ n)

/-- Modelled from the spec: deterministic YAML rendering of the document. -/
def renderLockfileYaml (doc : LockfileDocument) : String :=
  "version: " ++ toString doc.version ++ "\nsources:" ++
    String.join (doc.sources.map renderLockfileSource) ++ "\n"

/-- Two observations of the same on-disk agent directory: identical agent,
path and existence, the same entries up to `readdirSync` enumeration order,
and (as on a real filesystem) no duplicate entry names. -/
def agentDirEquiv (d₁ d₂ : AgentDir) : Prop :=
  d₁.agent = d₂.agent ∧ d₁.dirPath = d₂.dirPath ∧ d₁.present = d₂.present ∧
    List.Perm d₁.entries d₂.entries ∧ (d₁.entries.map SkillDirEntry.name).Nodup

/-- The 5-tuple source identity of claim C3. -/
def sourceTuple (src : SourceInfo) : String × String × String × String × String :=
  (src.type, src.url, orEmpty src.ref, orEmpty src.digest, src.installMethod)

/-- The 5-tuple identity of an emitted lock entry. -/
def entryTuple (e : LockfileSource) : String × String × String × String × String :=
  (e.type, e.url, orEmpty e.ref, orEmpty e.digest, e.installMethod)

/-- No component of the grouping key contains the `|` join separator. -/
def pipeFree (src : SourceInfo) : Prop :=
  '|' ∉ src.type.data ∧ '|' ∉ src.url.data ∧ '|' ∉ (orEmpty src.ref).data ∧
    '|' ∉ (orEmpty src.digest).data ∧ '|' ∉ src.installMethod.data

instance (src : SourceInfo) : Decidable (pipeFree src) :=
  inferInstanceAs (Decidable (_ ∧ _ ∧ _ ∧ _ ∧ _))

/-- An installed skill whose source type smuggles the `|` separator. -/
def pipeSkillA : InstalledSkill := ⟨"claude", "alpha", ⟨"a|b", "c", none, none, "copy"⟩⟩

/-- An installed skill with a different source tuple but the same joined
grouping key as `pipeSkillA`. -/
def pipeSkillB : InstalledSkill := ⟨"claude", "beta", ⟨"a", "b|c", none, none, "copy"⟩⟩

/-- An installed skill with an ordinary, separator-free provenance tuple. -/
def cleanSkill : InstalledSkill :=
  ⟨"claude", "alpha", ⟨"git", "https://github.com/o/r.git", some "main", some "d1", "copy"⟩⟩

/-- A sample skill directory entry. -/
def sampleEntryAlpha : SkillDirEntry :=
  ⟨"alpha", true, false, true, some "alpha",
    ⟨some "git", some "https://github.com/o/r.git", some "main", some "d1", some "copy"⟩⟩

/-- A second sample skill directory entry. -/
def sampleEntryBeta : SkillDirEntry :=
  ⟨"beta", true, false, true, some "beta",
    ⟨some "git", some "https://github.com/o/r.git", some "main", some "d1", some "copy"⟩⟩

/-- A one-agent disk state listing `alpha` before `beta`. -/
def sampleDiskA : List AgentDir :=
  [⟨"claude", "/p/.claude/skills", true, [sampleEntryAlpha, sampleEntryBeta]⟩]

/-- The same disk state with the enumeration order reversed. -/
def sampleDiskB : List AgentDir :=
  [⟨"claude", "/p/.claude/skills", true, [sampleEntryBeta, sampleEntryAlpha]⟩]

/-- A concrete conflict-free install run used to exercise `installSkillModel`. -/
def sampleInstallEnv : InstallEnv :=
  ⟨"/tmp/src/alpha", "/store", "/proj/.claude/skills", false, true, false, false, none, true⟩

/-- The result `installSkillModel` produces on `sampleInstallEnv`. -/
def sampleInstallResult : InstallSkillResult :=
  { skillName := "alpha"
    storagePath := "/store/0123456789abcdef/alpha"
    installedPath := "/proj/.claude/skills/alpha"
    method := InstallMethod.symlink
    changed := true
    message := "symlinked alpha to /proj/.claude/skills/alpha" }

/-! ## Theorems -/

theorem sanitizeChars_idem (cs : List Char) :
    sanitizeChars (sanitizeChars cs) = sanitizeChars cs := by
  induction cs with
  | nil => rfl
  | cons c rest ih =>
    simp only [sanitizeChars, List.map_cons, List.map_map] at ih ⊢
    refine congrArg₂ List.cons ?_ ih
    by_cases hc : c = '\\'
    · subst hc; decide
    · simp [hc]

theorem classifyArchiveEntry_ne_ok_of_bad_entry {e : String} (h : isUnsafeEntry e = true) :
    classifyArchiveEntry (sanitizeChars e.data) ≠ EntryVerdict.ok := by
  intro hok
  unfold isUnsafeEntry at h
  unfold classifyArchiveEntry at hok
  by_cases h1 : (sanitizeChars e.data).isEmpty = true
  · have hnil : sanitizeChars e.data = [] := List.isEmpty_iff.mp h1
    rw [hnil] at h
    exact absurd h (by decide)
  · rw [if_neg h1] at hok
    by_cases h2 : (chStartsWith (sanitizeChars e.data) ['/'] ||
        isDriveLetterPrefixed (sanitizeChars e.data)) = true
    · rw [if_pos h2] at hok
      cases hok
    · rw [if_neg h2] at hok
      by_cases h3 : (posixNormalizeChars (sanitizeChars e.data) == ['.', '.'] ||
          chStartsWith (posixNormalizeChars (sanitizeChars e.data)) ['.', '.', '/'] ||
          hasInfixChars ['/', '.', '.', '/'] (posixNormalizeChars (sanitizeChars e.data))) = true
      · rw [if_pos h3] at hok
        cases hok
      · simp only [Bool.or_eq_true, not_or, Bool.not_eq_true] at h h2 h3
        rcases h with (hA | hB) | (hC | hD)
        · simp [h2.1] at hA
        · simp [h2.2] at hB
        · simp [h3.1.1] at hC
        · simp [h3.1.2] at hD

theorem validateArchiveEntryPath_error_of_bad_entry {e : String}
    (h : isUnsafeEntry e = true) :
    ∃ err, validateArchiveEntryPath e = Except.error err := by
  have hcl := classifyArchiveEntry_ne_ok_of_bad_entry h
  unfold validateArchiveEntryPath
  cases hc : classifyArchiveEntry (sanitizeChars e.data) with
  | ok => exact absurd hc hcl
  | absolute => exact ⟨_, rfl⟩
  | traversal => exact ⟨_, rfl⟩

theorem validateEntries_error_of_mem {entries : List String} {e : String}
    (hmem : e ∈ entries) (herr : ∃ err, validateArchiveEntryPath e = Except.error err) :
    ∃ err, validateEntries entries = Except.error err := by
  induction entries with
  | nil => cases hmem
  | cons hd tl ih =>
    cases hv : validateArchiveEntryPath hd with
    | error err => exact ⟨err, by simp [validateEntries, hv]⟩
    | ok u =>
      rcases List.mem_cons.mp hmem with rfl | hmem2
      · rcases herr with ⟨err, herr⟩
        rw [hv] at herr
        cases herr
      · rcases ih hmem2 with ⟨err, htl⟩
        exact ⟨err, by simp [validateEntries, hv, htl]⟩

/-- C1: for every archive entry list produced from a downloaded HTTP archive,
if any entry path is absolute (POSIX `/` or Windows drive-letter prefixed) or
its POSIX-normalized form is, or begins with, a parent-directory traversal
`..`, then `resolveHttpArchive` fails with an `ArchiveResolveError`, and the
validation of the full entry list happens before any extraction step runs. -/
theorem resolveHttpArchive_rejects_traversal_before_extraction
    (env : HttpArchiveEnv) (maxDownloadBytes maxEntries maxExtractedBytes : Nat)
    (e : String) (hmem : e ∈ env.entries) (hbad : isUnsafeEntry e = true) :
    (∃ err, (resolveHttpArchiveModel env maxDownloadBytes maxEntries maxExtractedBytes).1 =
        Except.error err) ∧
      (resolveHttpArchiveModel env maxDownloadBytes maxEntries maxExtractedBytes).2.extracted =
        false := by
  obtain ⟨verr, hval⟩ : ∃ err, validateEntries env.entries = Except.error err :=
    validateEntries_error_of_mem hmem (validateArchiveEntryPath_error_of_bad_entry hbad)
  have hpw : resolvePostWrite env maxEntries maxExtractedBytes =
      (if env.entries.length > maxEntries then
        (Except.error ⟨"Archive entry count exceeds limit (" ++ toString maxEntries ++ ")"⟩,
          (⟨true, false⟩ : HttpArchiveTrace))
      else (Except.error verr, ⟨true, false⟩)) := by
    unfold resolvePostWrite
    by_cases hcount : env.entries.length > maxEntries
    · rw [if_pos hcount, if_pos hcount]
    · rw [if_neg hcount, if_neg hcount, hval]
  cases hdl : (downloadArchive env.chunks maxDownloadBytes).1 with
  | error err =>
    have hm : resolveHttpArchiveModel env maxDownloadBytes maxEntries maxExtractedBytes =
        (Except.error err, ⟨false, false⟩) := by
      unfold resolveHttpArchiveModel
      rw [hdl]
    rw [hm]
    exact ⟨⟨err, rfl⟩, rfl⟩
  | ok buffer =>
    have hm : resolveHttpArchiveModel env maxDownloadBytes maxEntries maxExtractedBytes =
        resolveAfterDownload env maxEntries maxExtractedBytes buffer := by
      unfold resolveHttpArchiveModel
      rw [hdl]
    rw [hm]
    cases hdet : detectArchiveFormat env.finalUrl env.contentType buffer with
    | error err2 =>
      have hm2 : resolveAfterDownload env maxEntries maxExtractedBytes buffer =
          (Except.error err2, ⟨false, false⟩) := by
        unfold resolveAfterDownload
        rw [hdet]
      rw [hm2]
      exact ⟨⟨err2, rfl⟩, rfl⟩
    | ok fmt =>
      have hm2 : resolveAfterDownload env maxEntries maxExtractedBytes buffer =
          resolvePostWrite env maxEntries maxExtractedBytes := by
        unfold resolveAfterDownload
        rw [hdet]
      rw [hm2, hpw]
      by_cases hcount : env.entries.length > maxEntries
      · rw [if_pos hcount]
        exact ⟨⟨_, rfl⟩, rfl⟩
      · rw [if_neg hcount]
        exact ⟨⟨verr, rfl⟩, rfl⟩

theorem resolveHttpArchive_rejects_traversal_witness :
    (∃ err, (resolveHttpArchiveModel ⟨[[0x1f, 0x8b]], "", "http://e/a.tgz", ["../evil"], 0⟩
        50 100 1000).1 = Except.error err) ∧
      (resolveHttpArchiveModel ⟨[[0x1f, 0x8b]], "", "http://e/a.tgz", ["../evil"], 0⟩
        50 100 1000).2.extracted = false :=
  resolveHttpArchive_rejects_traversal_before_extraction
    ⟨[[0x1f, 0x8b]], "", "http://e/a.tgz", ["../evil"], 0⟩ 50 100 1000
    "../evil" (by decide) (by decide)

theorem downloadLoop_error_spec (maxD : Nat) (chunks : List (List Nat)) :
    ∀ (total : Nat) (acc : List (List Nat)) (consumed : Nat),
      total ≤ maxD → maxD < total + (chunks.map List.length).sum →
      ∃ err j, downloadLoop maxD chunks total acc consumed = (Except.error err, consumed + j) ∧
        1 ≤ j ∧ j ≤ chunks.length ∧
        maxD < total + ((chunks.take j).map List.length).sum ∧
        ∀ i, i < j → total + ((chunks.take i).map List.length).sum ≤ maxD := by
  induction chunks with
  | nil =>
    intro total acc consumed hle hgt
    simp at hgt
    omega
  | cons chunk rest ih =>
    intro total acc consumed hle hgt
    by_cases hover : maxD < total + chunk.length
    · refine ⟨⟨"Archive download exceeds limit (" ++ toString maxD ++ " bytes)"⟩, 1, ?_,
        le_refl 1, by simp, by simpa using hover, ?_⟩
      · unfold downloadLoop
        rw [if_pos hover]
      · intro i hi
        have hizero : i = 0 := by omega
        subst hizero
        simpa using hle
    · have hle2 : total + chunk.length ≤ maxD := Nat.le_of_not_lt hover
      have hgt2 : maxD < total + chunk.length + (rest.map List.length).sum := by
        simp only [List.map_cons, List.sum_cons] at hgt
        omega
      rcases ih (total + chunk.length) (chunk :: acc) (consumed + 1) hle2 hgt2 with
        ⟨err, j, heq, hj1, hjle, hjgt, hjprev⟩
      refine ⟨err, j + 1, ?_, by omega, by simp only [List.length_cons]; omega, ?_, ?_⟩
      · unfold downloadLoop
        rw [if_neg hover]
        have hadd : consumed + 1 + j = consumed + (j + 1) := by omega
        rw [← hadd]
        exact heq
      · simp only [List.take_succ_cons, List.map_cons, List.sum_cons]
        omega
      · intro i hi
        cases i with
        | zero => simpa using hle
        | succ i2 =>
          have := hjprev i2 (by omega)
          simp only [List.take_succ_cons, List.map_cons, List.sum_cons]
          omega

/-- C4: for every HTTP archive download whose cumulative body bytes exceed
the configured `maxDownloadBytes`, `resolveHttpArchive` aborts with an
`ArchiveResolveError` at the moment the running byte counter first exceeds
the cap — mid-stream, after consuming exactly the first chunk that pushes the
total over the cap — and no archive file has been written to disk. -/
theorem downloadArchive_aborts_midstream (env : HttpArchiveEnv)
    (maxDownloadBytes maxEntries maxExtractedBytes : Nat)
    (h : maxDownloadBytes < ((env.chunks.map List.length)).sum) :
    (∃ err k, downloadArchive env.chunks maxDownloadBytes = (Except.error err, k) ∧
        1 ≤ k ∧ k ≤ env.chunks.length ∧
        maxDownloadBytes < ((env.chunks.take k).map List.length).sum ∧
        ∀ i, i < k → ((env.chunks.take i).map List.length).sum ≤ maxDownloadBytes) ∧
      (resolveHttpArchiveModel env maxDownloadBytes maxEntries maxExtractedBytes).2 =
        ⟨false, false⟩ := by
  obtain ⟨err, j, heq, h1, h2, h3, h4⟩ :=
    downloadLoop_error_spec maxDownloadBytes env.chunks 0 [] 0 (Nat.zero_le _)
      (by simpa using h)
  have hfst : (downloadArchive env.chunks maxDownloadBytes).1 = Except.error err := by
    unfold downloadArchive
    rw [heq]
  constructor
  · refine ⟨err, 0 + j, ?_, by omega, by omega, by simpa using h3, ?_⟩
    · unfold downloadArchive
      exact heq
    · intro i hi
      have := h4 i (by omega)
      omega
  · unfold resolveHttpArchiveModel
    rw [hfst]

theorem downloadArchive_aborts_midstream_witness :
    (∃ err k, downloadArchive [[1, 2], [3, 4], [5]] 3 = (Except.error err, k) ∧
        1 ≤ k ∧ k ≤ ([[1, 2], [3, 4], [5]] : List (List Nat)).length ∧
        3 < ((([[1, 2], [3, 4], [5]] : List (List Nat)).take k).map List.length).sum ∧
        ∀ i, i < k →
          ((([[1, 2], [3, 4], [5]] : List (List Nat)).take i).map List.length).sum ≤ 3) ∧
      (resolveHttpArchiveModel ⟨[[1, 2], [3, 4], [5]], "", "u", [], 0⟩ 3 100 1000).2 =
        ⟨false, false⟩ :=
  downloadArchive_aborts_midstream ⟨[[1, 2], [3, 4], [5]], "", "u", [], 0⟩ 3 100 1000
    (by decide)

theorem validateArchiveEntryPath_isOk_eq (e : String) :
    (validateArchiveEntryPath e).isOk =
      decide (classifyArchiveEntry (sanitizeChars e.data) = EntryVerdict.ok) := by
  unfold validateArchiveEntryPath
  cases classifyArchiveEntry (sanitizeChars e.data) <;> rfl

theorem validateTarEntry_isOk_eq (e : String) :
    (validateTarEntry e).isOk =
      decide (classifyTarEntry (sanitizeChars e.data) = EntryVerdict.ok) := by
  unfold validateTarEntry
  cases classifyTarEntry (sanitizeChars e.data) <;> rfl

/-- C10: archive and OCI-layer entry-path validation treats backslashes as
path separators: validating an entry is (up to the reported message, which
echoes the original path) the same as validating its backslash-to-slash
translation, so Windows-style entries like `..\evil` or `a\..\..\b` are
rejected exactly like their forward-slash equivalents, while the empty entry
path is accepted by both validators. -/
theorem entry_validation_backslash_as_separator :
    (∀ e : String,
        (validateArchiveEntryPath (slashify e)).isOk = (validateArchiveEntryPath e).isOk) ∧
      (∀ e : String,
        (validateTarEntry (slashify e)).isOk = (validateTarEntry e).isOk) ∧
      (validateArchiveEntryPath "..\\evil").isOk = false ∧
      (validateArchiveEntryPath "../evil").isOk = false ∧
      (validateTarEntry "a\\..\\..\\b").isOk = false ∧
      (validateTarEntry "a/../../b").isOk = false ∧
      validateArchiveEntryPath "" = Except.ok () ∧
      validateTarEntry "" = Except.ok () := by
  refine ⟨?_, ?_, by decide, by decide, by decide, by decide, rfl, rfl⟩
  · intro e
    rw [validateArchiveEntryPath_isOk_eq, validateArchiveEntryPath_isOk_eq]
    have hsan : sanitizeChars (slashify e).data = sanitizeChars e.data := sanitizeChars_idem _
    rw [hsan]
  · intro e
    rw [validateTarEntry_isOk_eq, validateTarEntry_isOk_eq]
    have hsan : sanitizeChars (slashify e).data = sanitizeChars e.data := sanitizeChars_idem _
    rw [hsan]

/-- C6: for every OCI manifest whose declared `artifactType` is not exactly
`application/vnd.skillet.skill.v1+tar` (including when the field is missing),
`resolveOciSource` raises an `OciResolveError` rejection, regardless of the
manifest's layer content, the layer's tar entries, or the extracted skill
count. -/
theorem resolveOciSource_rejects_wrong_artifact_type
    (m : OciManifest) (tarEntries : List String) (skillDirCount : Nat)
    (h : m.artifactType ≠ some SKILLET_ARTIFACT_TYPE) :
    resolveOciSourceModel m tarEntries skillDirCount =
      Except.error ⟨"Unsupported OCI artifact type: " ++
        (match m.artifactType with | some t => t | none => "missing")⟩ := by
  unfold resolveOciSourceModel resolveOciManifestPhase
  rw [if_pos h]

theorem resolveOciSource_rejects_wrong_artifact_type_witness :
    resolveOciSourceModel ⟨none, [⟨some "sha256:ab"⟩]⟩ ["a"] 1 =
      Except.error ⟨"Unsupported OCI artifact type: missing"⟩ :=
  resolveOciSource_rejects_wrong_artifact_type ⟨none, [⟨some "sha256:ab"⟩]⟩ ["a"] 1
    (by decide)

theorem findCloseIdx_eq_none_of_all {l : List String}
    (h : ∀ x ∈ l, jsTrim x ≠ "---") : findCloseIdx l = none := by
  induction l with
  | nil => rfl
  | cons hd tl ih =>
    unfold findCloseIdx
    rw [if_neg (by simpa using h hd (List.mem_cons_self hd tl))]
    rw [ih fun x hx => h x (List.mem_cons_of_mem hd hx)]

theorem findCloseIdx_isSome_of_mem {l : List String} {x : String}
    (hx : x ∈ l) (h : jsTrim x = "---") : ∃ j, findCloseIdx l = some j := by
  induction l with
  | nil => cases hx
  | cons hd tl ih =>
    unfold findCloseIdx
    by_cases hhd : (jsTrim hd == "---") = true
    · exact ⟨0, by rw [if_pos hhd]⟩
    · rw [if_neg hhd]
      rcases List.mem_cons.mp hx with rfl | hx2
      · exact absurd (by simpa using h) hhd
      · rcases ih hx2 with ⟨j, hj⟩
        exact ⟨j + 1, by rw [hj]⟩

/-- C7 counterexample: a `SKILL.md` text whose first non-empty line is
exactly `---` but which begins with a blank line is rejected by
`splitFrontmatter` with the missing-opening-delimiter error, although it has
a well-formed frontmatter block. -/
theorem splitFrontmatter_rejects_leading_blank_line :
    ((splitLinesRN "\n---\nname: sample\n---\nbody").find? fun l => !l.data.isEmpty) =
        some "---" ∧
      splitFrontmatter "\n---\nname: sample\n---\nbody" =
        Except.error ⟨"SKILL.md must start with frontmatter '---' delimiter", none⟩ :=
  ⟨rfl, rfl⟩

/-- C7 (amended): `splitFrontmatter` requires the very first line of the text
(not merely the first non-empty line) to trim to exactly `---`; otherwise it
fails with the missing-opening-delimiter error, so empty lines before the
opening `---` are rejected.  Given that opening line, it succeeds exactly
when some later line trims to `---`, and fails with the
missing-closing-delimiter error otherwise. -/
theorem splitFrontmatter_eq_of_lines {markdown l0 : String} {rest : List String}
    (hsplit : splitLinesRN markdown = l0 :: rest) :
    splitFrontmatter markdown =
      (if jsTrim l0 ≠ "---" then
        Except.error ⟨"SKILL.md must start with frontmatter '---' delimiter", none⟩
      else
        match findCloseIdx rest with
        | none =>
          Except.error ⟨"SKILL.md frontmatter must be closed with '---' delimiter", none⟩
        | some j =>
          Except.ok (joinWithNewline (rest.take j), joinWithNewline (rest.drop (j + 1)))) := by
  unfold splitFrontmatter
  rw [hsplit]

theorem splitFrontmatter_delimiter_classification
    (markdown : String) (l0 : String) (rest : List String)
    (hsplit : splitLinesRN markdown = l0 :: rest) :
    (jsTrim l0 ≠ "---" →
      splitFrontmatter markdown =
        Except.error ⟨"SKILL.md must start with frontmatter '---' delimiter", none⟩) ∧
      (jsTrim l0 = "---" → (∀ l ∈ rest, jsTrim l ≠ "---") →
        splitFrontmatter markdown =
          Except.error ⟨"SKILL.md frontmatter must be closed with '---' delimiter", none⟩) ∧
      (jsTrim l0 = "---" → (∃ l ∈ rest, jsTrim l = "---") →
        ∃ fm body, splitFrontmatter markdown = Except.ok (fm, body)) := by
  rw [splitFrontmatter_eq_of_lines hsplit]
  refine ⟨?_, ?_, ?_⟩
  · intro hne
    rw [if_pos hne]
  · intro heq hall
    rw [if_neg (fun hh => hh heq), findCloseIdx_eq_none_of_all hall]
  · intro heq hex
    rcases hex with ⟨l, hl, hlTrim⟩
    rcases findCloseIdx_isSome_of_mem hl hlTrim with ⟨j, hj⟩
    refine ⟨joinWithNewline (rest.take j), joinWithNewline (rest.drop (j + 1)), ?_⟩
    rw [if_neg (fun hh => hh heq), hj]

theorem splitFrontmatter_delimiter_classification_witness :
    (jsTrim "---" ≠ "---" →
      splitFrontmatter "---\nname: x\n---\nbody" =
        Except.error ⟨"SKILL.md must start with frontmatter '---' delimiter", none⟩) ∧
      (jsTrim "---" = "---" → (∀ l ∈ ["name: x", "---", "body"], jsTrim l ≠ "---") →
        splitFrontmatter "---\nname: x\n---\nbody" =
          Except.error ⟨"SKILL.md frontmatter must be closed with '---' delimiter", none⟩) ∧
      (jsTrim "---" = "---" → (∃ l ∈ ["name: x", "---", "body"], jsTrim l = "---") →
        ∃ fm body, splitFrontmatter "---\nname: x\n---\nbody" = Except.ok (fm, body)) :=
  splitFrontmatter_delimiter_classification "---\nname: x\n---\nbody" "---"
    ["name: x", "---", "body"] (by decide)

/-- C5: for a lock source entry of type `git` whose upstream digest query
succeeds with `latest`, `checkSource` reports `outdated` exactly when a
(truthy) digest is recorded and differs from `latest`; with no recorded
digest the status is `up-to-date`; and the freshly queried digest is
reported in either case. -/
theorem checkSource_git_outdated_iff
    (source : LockfileSourceEntry)
    (lsRemote : String → String → Except String String)
    (ociLatest : Except String String) (latest : String)
    (htype : source.type = "git")
    (hq : getLatestGitDigest source.url source.ref lsRemote = Except.ok latest) :
    ((checkSourceModel source lsRemote ociLatest).status = CheckStatus.outdated ↔
        truthy source.digest = true ∧ source.digest ≠ some latest) ∧
      (truthy source.digest = false →
        (checkSourceModel source lsRemote ociLatest).status = CheckStatus.upToDate) ∧
      (checkSourceModel source lsRemote ociLatest).latestDigest = some latest := by
  have hm : checkSourceModel source lsRemote ociLatest =
      (if truthy source.digest && !(source.digest == some latest) then
        (⟨CheckStatus.outdated, some latest, none⟩ : CheckOutcome)
      else ⟨CheckStatus.upToDate, some latest, none⟩) := by
    unfold checkSourceModel
    rw [if_pos htype, hq]
  rw [hm]
  by_cases hd : (truthy source.digest && !(source.digest == some latest)) = true
  · obtain ⟨h1, h2b⟩ : truthy source.digest = true ∧
        (!(source.digest == some latest)) = true := by
      simpa only [Bool.and_eq_true] using hd
    have h2 : source.digest ≠ some latest := by simpa using h2b
    rw [if_pos hd]
    refine ⟨⟨fun _ => ⟨h1, h2⟩, fun _ => rfl⟩, ?_, rfl⟩
    intro hfalse
    rw [hfalse] at h1
    cases h1
  · rw [if_neg hd]
    refine ⟨⟨fun habs => CheckStatus.noConfusion habs, ?_⟩, fun _ => rfl, rfl⟩
    rintro ⟨h1, h2⟩
    exfalso
    apply hd
    rw [h1]
    simpa using h2

theorem checkSource_git_outdated_iff_witness :
    ((checkSourceModel
          ⟨"git", "u", none, some "aaaaaaaaaaaaaaaaaaaaaaaaaaaaaaaaaaaaaaaa", "copy", [], []⟩
          (fun _ _ => Except.ok "bbbbbbbbbbbbbbbbbbbbbbbbbbbbbbbbbbbbbbbb\tHEAD")
          (Except.error "x")).status = CheckStatus.outdated ↔
        truthy (some "aaaaaaaaaaaaaaaaaaaaaaaaaaaaaaaaaaaaaaaa") = true ∧
          (some "aaaaaaaaaaaaaaaaaaaaaaaaaaaaaaaaaaaaaaaa" : Option String) ≠
            some "bbbbbbbbbbbbbbbbbbbbbbbbbbbbbbbbbbbbbbbb") ∧
      (truthy (some "aaaaaaaaaaaaaaaaaaaaaaaaaaaaaaaaaaaaaaaa") = false →
        (checkSourceModel
          ⟨"git", "u", none, some "aaaaaaaaaaaaaaaaaaaaaaaaaaaaaaaaaaaaaaaa", "copy", [], []⟩
          (fun _ _ => Except.ok "bbbbbbbbbbbbbbbbbbbbbbbbbbbbbbbbbbbbbbbb\tHEAD")
          (Except.error "x")).status = CheckStatus.upToDate) ∧
      (checkSourceModel
          ⟨"git", "u", none, some "aaaaaaaaaaaaaaaaaaaaaaaaaaaaaaaaaaaaaaaa", "copy", [], []⟩
          (fun _ _ => Except.ok "bbbbbbbbbbbbbbbbbbbbbbbbbbbbbbbbbbbbbbbb\tHEAD")
          (Except.error "x")).latestDigest =
        some "bbbbbbbbbbbbbbbbbbbbbbbbbbbbbbbbbbbbbbbb" :=
  checkSource_git_outdated_iff
    ⟨"git", "u", none, some "aaaaaaaaaaaaaaaaaaaaaaaaaaaaaaaaaaaaaaaa", "copy", [], []⟩
    (fun _ _ => Except.ok "bbbbbbbbbbbbbbbbbbbbbbbbbbbbbbbbbbbbbbbb\tHEAD")
    (Except.error "x") "bbbbbbbbbbbbbbbbbbbbbbbbbbbbbbbbbbbbbbbb" rfl rfl

/-- C8: when the target install path `targetSkillsDir/<skillName>` is
occupied by an entry that is neither a directory nor a symlink (and the
earlier preconditions on the source path and the target skills directory
hold), `installSkill` fails with an `InstallConflictError` carrying that
path, and nothing has been copied into the storage root. -/
theorem installSkill_conflict_on_occupied_target
    (env : InstallEnv) (sourceIdDigest : String) (k : FsKind)
    (hsrc : env.sourceIsDirectory = true)
    (htgt : env.targetDirExists = false ∨ env.targetDirIsDirectory = true)
    (hocc : env.installedPathKind = some k)
    (hkd : k ≠ FsKind.dir) (hks : k ≠ FsKind.symlink) :
    installSkillModel env sourceIdDigest =
      (Except.error
        ⟨"Install conflict at " ++
            (env.targetSkillsDir ++ "/" ++ posixBasename env.sourceSkillPath) ++
            ": existing path is not a directory or symlink",
          env.targetSkillsDir ++ "/" ++ posixBasename env.sourceSkillPath⟩, false) := by
  have hrep : assertReplaceableInstallPath
      (env.targetSkillsDir ++ "/" ++ posixBasename env.sourceSkillPath)
      env.installedPathKind =
      Except.error
        ⟨"Install conflict at " ++
            (env.targetSkillsDir ++ "/" ++ posixBasename env.sourceSkillPath) ++
            ": existing path is not a directory or symlink",
          env.targetSkillsDir ++ "/" ++ posixBasename env.sourceSkillPath⟩ := by
    rw [hocc]
    cases k with
    | file => rfl
    | dir => exact absurd rfl hkd
    | symlink => exact absurd rfl hks
    | other => rfl
  unfold installSkillModel
  rw [hsrc]
  have h2 : (env.targetDirExists && !env.targetDirIsDirectory) = false := by
    rcases htgt with h | h <;> rw [h] <;> simp
  rw [h2]
  simp only [Bool.not_true, Bool.false_eq_true, if_false]
  rw [hrep]

theorem installSkill_conflict_on_occupied_target_witness :
    installSkillModel
        ⟨"/tmp/src/alpha", "/store", "/proj/.claude/skills", false, true, true, true,
          some FsKind.file, true⟩ "0123456789abcdef" =
      (Except.error
        ⟨"Install conflict at " ++
            ("/proj/.claude/skills" ++ "/" ++ posixBasename "/tmp/src/alpha") ++
            ": existing path is not a directory or symlink",
          "/proj/.claude/skills" ++ "/" ++ posixBasename "/tmp/src/alpha"⟩, false) :=
  installSkill_conflict_on_occupied_target
    ⟨"/tmp/src/alpha", "/store", "/proj/.claude/skills", false, true, true, true,
      some FsKind.file, true⟩ "0123456789abcdef" FsKind.file rfl (Or.inr rfl)
    rfl (by decide) (by decide)

theorem isPrefixOf_append_self (l t : List Char) : l.isPrefixOf (l ++ t) = true := by
  induction l with
  | nil => cases t <;> rfl
  | cons c cs ih => simp [List.isPrefixOf, ih]

/-- C9: whenever `installSkill` returns a result, `changed` is `true` and the
`method` matches the message prefix (`symlinked …` / `copied …`); the
function performs no change detection, so any successful run — including a
re-install of identical content — reports `changed = true`. -/
theorem installSkill_success_always_changed
    (env : InstallEnv) (sourceIdDigest : String) (r : InstallSkillResult)
    (h : (installSkillModel env sourceIdDigest).1 = Except.ok r) :
    r.changed = true ∧
      ((r.method = InstallMethod.symlink ∧ strStartsWith r.message "symlinked" = true) ∨
        (r.method = InstallMethod.copy ∧ strStartsWith r.message "copied" = true)) := by
  unfold installSkillModel at h
  by_cases h1 : (!env.sourceIsDirectory) = true
  · rw [if_pos h1] at h
    cases h
  · rw [if_neg h1] at h
    by_cases h2 : (env.targetDirExists && !env.targetDirIsDirectory) = true
    · rw [if_pos h2] at h
      cases h
    · rw [if_neg h2] at h
      cases hrep : assertReplaceableInstallPath
          (env.targetSkillsDir ++ "/" ++ posixBasename env.sourceSkillPath)
          env.installedPathKind with
      | error e =>
        rw [hrep] at h
        cases h
      | ok u =>
        rw [hrep] at h
        have hr := (Except.ok.inj h).symm
        subst hr
        refine ⟨rfl, ?_⟩
        by_cases hpc : env.preferCopy = true
        · right
          rw [hpc]
          refine ⟨rfl, ?_⟩
          simp only [strStartsWith, String.data_append, List.append_assoc]
          exact isPrefixOf_append_self _ _
        · rw [Bool.not_eq_true] at hpc
          rw [hpc]
          by_cases hsl : env.symlinkSucceeds = true
          · left
            rw [hsl]
            refine ⟨rfl, ?_⟩
            simp only [strStartsWith, String.data_append, List.append_assoc]
            exact isPrefixOf_append_self _ _
          · rw [Bool.not_eq_true] at hsl
            right
            rw [hsl]
            refine ⟨rfl, ?_⟩
            simp only [strStartsWith, String.data_append, List.append_assoc]
            exact isPrefixOf_append_self _ _

theorem charCmp_self (a : Char) : charCmp a a = Ordering.eq := by
  simp [charCmp, lt_irrefl]

theorem charCmp_eq_eq {a b : Char} (h : charCmp a b = Ordering.eq) : a = b := by
  unfold charCmp at h
  by_cases h1 : a < b
  · rw [if_pos h1] at h
    cases h
  · rw [if_neg h1] at h
    by_cases h2 : b < a
    · rw [if_pos h2] at h
      cases h
    · exact le_antisymm (not_lt.mp h2) (not_lt.mp h1)

theorem charCmp_swap (a b : Char) : (charCmp a b).swap = charCmp b a := by
  unfold charCmp
  rcases lt_trichotomy a b with h | h | h
  · rw [if_pos h, if_neg (lt_asymm h), if_pos h]
    rfl
  · subst h
    simp [lt_irrefl]
    rfl
  · rw [if_neg (lt_asymm h), if_pos h, if_pos h]
    rfl

theorem charCmp_lt_iff {a b : Char} : charCmp a b = Ordering.lt ↔ a < b := by
  unfold charCmp
  by_cases h1 : a < b
  · simp [h1]
  · rw [if_neg h1]
    by_cases h2 : b < a <;> simp [h1, h2]

theorem charCmp_lt_trans {a b c : Char} (h₁ : charCmp a b = Ordering.lt)
    (h₂ : charCmp b c = Ordering.lt) : charCmp a c = Ordering.lt :=
  charCmp_lt_iff.mpr (lt_trans (charCmp_lt_iff.mp h₁) (charCmp_lt_iff.mp h₂))

theorem lexCmp_self (cmp : α → α → Ordering) (hself : ∀ a, cmp a a = Ordering.eq) :
    ∀ l, lexCmp cmp l l = Ordering.eq
  | [] => rfl
  | a :: as => by
    unfold lexCmp
    rw [hself a]
    exact lexCmp_self cmp hself as

theorem lexCmp_eq_eq (cmp : α → α → Ordering)
    (heq : ∀ a b, cmp a b = Ordering.eq → a = b) :
    ∀ l₁ l₂, lexCmp cmp l₁ l₂ = Ordering.eq → l₁ = l₂
  | [], [], _ => rfl
  | [], _ :: _, h => Ordering.noConfusion h
  | _ :: _, [], h => Ordering.noConfusion h
  | a :: as, b :: bs, h => by
    unfold lexCmp at h
    cases hab : cmp a b with
    | eq =>
      rw [hab] at h
      have hhead := heq a b hab
      subst hhead
      have htail : lexCmp cmp as bs = Ordering.eq := h
      rw [lexCmp_eq_eq cmp heq as bs htail]
    | lt =>
      rw [hab] at h
      exact Ordering.noConfusion h
    | gt =>
      rw [hab] at h
      exact Ordering.noConfusion h

theorem lexCmp_swap (cmp : α → α → Ordering)
    (hswap : ∀ a b, (cmp a b).swap = cmp b a) :
    ∀ l₁ l₂, (lexCmp cmp l₁ l₂).swap = lexCmp cmp l₂ l₁
  | [], [] => rfl
  | [], _ :: _ => rfl
  | _ :: _, [] => rfl
  | a :: as, b :: bs => by
    unfold lexCmp
    cases hab : cmp a b with
    | eq =>
      have hba : cmp b a = Ordering.eq := by
        rw [← hswap a b, hab]
        rfl
      rw [hba]
      exact lexCmp_swap cmp hswap as bs
    | lt =>
      have hba : cmp b a = Ordering.gt := by
        rw [← hswap a b, hab]
        rfl
      rw [hba]
      rfl
    | gt =>
      have hba : cmp b a = Ordering.lt := by
        rw [← hswap a b, hab]
        rfl
      rw [hba]
      rfl

theorem lexCmp_lt_trans (cmp : α → α → Ordering)
    (hself : ∀ a, cmp a a = Ordering.eq)
    (heq : ∀ a b, cmp a b = Ordering.eq → a = b)
    (hlt : ∀ a b c, cmp a b = Ordering.lt → cmp b c = Ordering.lt → cmp a c = Ordering.lt) :
    ∀ l₁ l₂ l₃, lexCmp cmp l₁ l₂ = Ordering.lt → lexCmp cmp l₂ l₃ = Ordering.lt →
      lexCmp cmp l₁ l₃ = Ordering.lt
  | [], [], _, h₁, _ => Ordering.noConfusion h₁
  | [], _ :: _, [], _, h₂ => Ordering.noConfusion h₂
  | [], _ :: _, _ :: _, _, _ => rfl
  | _ :: _, [], _, h₁, _ => Ordering.noConfusion h₁
  | _ :: _, _ :: _, [], _, h₂ => Ordering.noConfusion h₂
  | a :: as, b :: bs, c :: cs, h₁, h₂ => by
    unfold lexCmp at h₁ h₂ ⊢
    cases hab : cmp a b with
    | eq =>
      rw [hab] at h₁
      have hb := heq a b hab
      subst hb
      cases hbc : cmp a c with
      | eq =>
        rw [hbc] at h₂
        have h₁t : lexCmp cmp as bs = Ordering.lt := h₁
        have h₂t : lexCmp cmp bs cs = Ordering.lt := h₂
        exact lexCmp_lt_trans cmp hself heq hlt as bs cs h₁t h₂t
      | lt => rfl
      | gt =>
        rw [hbc] at h₂
        have h₂t : Ordering.gt = Ordering.lt := h₂
        exact Ordering.noConfusion h₂t
    | lt =>
      rw [hab] at h₁
      cases hbc : cmp b c with
      | eq =>
        have hc := heq b c hbc
        rw [← hc, hab]
      | lt => rw [hlt a b c hab hbc]
      | gt =>
        rw [hbc] at h₂
        have h₂t : Ordering.gt = Ordering.lt := h₂
        exact Ordering.noConfusion h₂t
    | gt =>
      rw [hab] at h₁
      exact Ordering.noConfusion h₁

theorem cmpStr_self (a : String) : cmpStr a a = Ordering.eq :=
  lexCmp_self charCmp charCmp_self a.data

theorem cmpStr_eq_eq {a b : String} (h : cmpStr a b = Ordering.eq) : a = b := by
  have hd : a.data = b.data := lexCmp_eq_eq charCmp (fun _ _ => charCmp_eq_eq) a.data b.data h
  cases a
  cases b
  exact congrArg String.mk hd

theorem cmpStr_swap (a b : String) : (cmpStr a b).swap = cmpStr b a :=
  lexCmp_swap charCmp charCmp_swap a.data b.data

theorem cmpStr_lt_trans {a b c : String} (h₁ : cmpStr a b = Ordering.lt)
    (h₂ : cmpStr b c = Ordering.lt) : cmpStr a c = Ordering.lt :=
  lexCmp_lt_trans charCmp charCmp_self (fun _ _ => charCmp_eq_eq)
    (fun _ _ _ => charCmp_lt_trans) a.data b.data c.data h₁ h₂

theorem ord_ne_gt_iff {o : Ordering} :
    o ≠ Ordering.gt ↔ o = Ordering.lt ∨ o = Ordering.eq := by
  cases o <;> simp

theorem strLe_total (a b : String) : strLe a b ∨ strLe b a := by
  by_cases h : cmpStr a b = Ordering.gt
  · right
    intro hba
    have hs := cmpStr_swap a b
    rw [h, hba] at hs
    exact Ordering.noConfusion hs
  · exact Or.inl h

theorem strLe_trans {a b c : String} (h₁ : strLe a b) (h₂ : strLe b c) : strLe a c := by
  rcases ord_ne_gt_iff.mp h₁ with hab | hab <;> rcases ord_ne_gt_iff.mp h₂ with hbc | hbc
  · exact ord_ne_gt_iff.mpr (Or.inl (cmpStr_lt_trans hab hbc))
  · rw [cmpStr_eq_eq hbc] at hab
    exact ord_ne_gt_iff.mpr (Or.inl hab)
  · rw [← cmpStr_eq_eq hab] at hbc
    exact ord_ne_gt_iff.mpr (Or.inl hbc)
  · rw [cmpStr_eq_eq hab, cmpStr_eq_eq hbc]
    exact ord_ne_gt_iff.mpr (Or.inr (cmpStr_self c))

instance : IsTotal String strLe := ⟨strLe_total⟩

instance : IsTrans String strLe := ⟨fun _ _ _ => strLe_trans⟩

instance : IsTotal SkillDirEntry entryLe := ⟨fun a b => strLe_total a.name b.name⟩

instance : IsTrans SkillDirEntry entryLe := ⟨fun _ _ _ => strLe_trans⟩

instance : IsAntisymm SkillDirEntry entryLt :=
  ⟨fun a b h₁ h₂ => by
    have hs := cmpStr_swap a.name b.name
    rw [h₁, h₂] at hs
    exact Ordering.noConfusion hs⟩

theorem cmpStrList_eq_eq {l₁ l₂ : List String} (h : cmpStrList l₁ l₂ = Ordering.eq) :
    l₁ = l₂ :=
  lexCmp_eq_eq cmpStr (fun _ _ => cmpStr_eq_eq) l₁ l₂ h

theorem cmpStrList_self (l : List String) : cmpStrList l l = Ordering.eq :=
  lexCmp_self cmpStr cmpStr_self l

theorem cmpStrList_swap (l₁ l₂ : List String) :
    (cmpStrList l₁ l₂).swap = cmpStrList l₂ l₁ :=
  lexCmp_swap cmpStr cmpStr_swap l₁ l₂

theorem cmpStrList_lt_trans {l₁ l₂ l₃ : List String}
    (h₁ : cmpStrList l₁ l₂ = Ordering.lt) (h₂ : cmpStrList l₂ l₃ = Ordering.lt) :
    cmpStrList l₁ l₃ = Ordering.lt :=
  lexCmp_lt_trans cmpStr cmpStr_self (fun _ _ => cmpStr_eq_eq)
    (fun _ _ _ => cmpStr_lt_trans) l₁ l₂ l₃ h₁ h₂

instance : IsTotal LockfileSource lockSourceLe :=
  ⟨fun a b => by
    by_cases h : cmpStrList (sortKeyList a) (sortKeyList b) = Ordering.gt
    · right
      intro hba
      have hs := cmpStrList_swap (sortKeyList a) (sortKeyList b)
      rw [h, hba] at hs
      exact Ordering.noConfusion hs
    · exact Or.inl h⟩

instance : IsTrans LockfileSource lockSourceLe :=
  ⟨fun a b c h₁ h₂ => by
    rcases ord_ne_gt_iff.mp h₁ with hab | hab <;> rcases ord_ne_gt_iff.mp h₂ with hbc | hbc
    · exact ord_ne_gt_iff.mpr (Or.inl (cmpStrList_lt_trans hab hbc))
    · unfold lockSourceLe
      rw [cmpStrList_eq_eq hbc] at hab
      exact ord_ne_gt_iff.mpr (Or.inl hab)
    · unfold lockSourceLe
      rw [← cmpStrList_eq_eq hab] at hbc
      exact ord_ne_gt_iff.mpr (Or.inl hbc)
    · unfold lockSourceLe
      rw [cmpStrList_eq_eq hab, cmpStrList_eq_eq hbc]
      exact ord_ne_gt_iff.mpr (Or.inr (cmpStrList_self _))⟩

theorem strLt_of_le_ne {x y : String} (hle : strLe x y) (hne : x ≠ y) :
    cmpStr x y = Ordering.lt := by
  rcases ord_ne_gt_iff.mp hle with h | h
  · exact h
  · exact absurd (cmpStr_eq_eq h) hne

theorem sorted_filtered_entries_eq
    {entries₁ entries₂ : List SkillDirEntry}
    (hperm : List.Perm entries₁ entries₂)
    (hnodup : (entries₁.map SkillDirEntry.name).Nodup) :
    listSkillDirectoriesModel entries₁ = listSkillDirectoriesModel entries₂ := by
  unfold listSkillDirectoriesModel
  have hpf : List.Perm (entries₁.filter fun e => e.isDirLike)
      (entries₂.filter fun e => e.isDirLike) := hperm.filter _
  have hsp : List.Perm (List.insertionSort entryLe (entries₁.filter fun e => e.isDirLike))
      (List.insertionSort entryLe (entries₂.filter fun e => e.isDirLike)) :=
    (List.perm_insertionSort entryLe _).trans
      (hpf.trans (List.perm_insertionSort entryLe _).symm)
  have hnd₁ : ((entries₁.filter fun e => e.isDirLike).map SkillDirEntry.name).Nodup :=
    hnodup.sublist ((List.filter_sublist _).map _)
  have hnd₂ : ((entries₂.filter fun e => e.isDirLike).map SkillDirEntry.name).Nodup :=
    ((hpf.map SkillDirEntry.name).nodup_iff).mp hnd₁
  have hsym : ∀ {x y : SkillDirEntry}, x.name ≠ y.name → y.name ≠ x.name :=
    fun h => h.symm
  have hpw₁ : (List.insertionSort entryLe (entries₁.filter fun e => e.isDirLike)).Pairwise
      (fun a b => a.name ≠ b.name) :=
    ((List.perm_insertionSort entryLe _).pairwise_iff hsym).mpr (List.pairwise_map.mp hnd₁)
  have hpw₂ : (List.insertionSort entryLe (entries₂.filter fun e => e.isDirLike)).Pairwise
      (fun a b => a.name ≠ b.name) :=
    ((List.perm_insertionSort entryLe _).pairwise_iff hsym).mpr (List.pairwise_map.mp hnd₂)
  have hlt₁ : List.Sorted entryLt
      (List.insertionSort entryLe (entries₁.filter fun e => e.isDirLike)) :=
    ((List.sorted_insertionSort entryLe _).and hpw₁).imp
      fun hab => strLt_of_le_ne hab.1 hab.2
  have hlt₂ : List.Sorted entryLt
      (List.insertionSort entryLe (entries₂.filter fun e => e.isDirLike)) :=
    ((List.sorted_insertionSort entryLe _).and hpw₂).imp
      fun hab => strLt_of_le_ne hab.1 hab.2
  exact List.eq_of_perm_of_sorted hsp hlt₁ hlt₂

theorem scanInstalled_eq_of_equiv :
    ∀ {disk₁ disk₂ : List AgentDir}, List.Forall₂ agentDirEquiv disk₁ disk₂ →
      scanInstalled disk₁ = scanInstalled disk₂ := by
  intro disk₁ disk₂ h
  induction h with
  | nil => rfl
  | @cons d₁ d₂ l₁ l₂ hhd _htl ih =>
    obtain ⟨hag, hdp, hpr, hperm, hnodup⟩ := hhd
    have hhd2 : agentScan d₁ = agentScan d₂ := by
      unfold agentScan
      rw [hpr, hag, hdp, sorted_filtered_entries_eq hperm hnodup]
    simp only [scanInstalled, List.map_cons, List.flatten_cons] at ih ⊢
    rw [hhd2, ih]

/-- C2: lockfile generation is deterministic and idempotent: for a fixed
disk state of installed skills, `generateLockfile` emits lock entries sorted
by the `(type, url, ref, digest, installMethod)` comparator, with each
entry's skills and agents lists sorted, and two runs over the same disk
state — even with different `readdirSync` enumeration orders — produce
byte-identical YAML output. -/
theorem generateLockfile_deterministic_and_sorted
    (disk₁ disk₂ : List AgentDir) (h : List.Forall₂ agentDirEquiv disk₁ disk₂) :
    renderLockfileYaml (generateLockfileDoc disk₁) =
        renderLockfileYaml (generateLockfileDoc disk₂) ∧
      List.Sorted lockSourceLe (generateLockfileDoc disk₁).sources ∧
      ∀ e ∈ (generateLockfileDoc disk₁).sources,
        List.Sorted strLe e.skills ∧ List.Sorted strLe e.agents := by
  have hscan := scanInstalled_eq_of_equiv h
  refine ⟨?_, ?_, ?_⟩
  · unfold generateLockfileDoc
    rw [hscan]
  · exact List.sorted_insertionSort lockSourceLe _
  · intro e he
    have he2 : e ∈ (groupInstalled (scanInstalled disk₁)).map fun kg => normalizeGroup kg.2 :=
      (List.perm_insertionSort lockSourceLe _).mem_iff.mp he
    rcases List.mem_map.mp he2 with ⟨kg, _hkg, rfl⟩
    exact ⟨List.sorted_insertionSort strLe _, List.sorted_insertionSort strLe _⟩

theorem generateLockfile_deterministic_and_sorted_witness :
    (renderLockfileYaml (generateLockfileDoc sampleDiskA) =
        renderLockfileYaml (generateLockfileDoc sampleDiskB)) ∧
      List.Sorted lockSourceLe (generateLockfileDoc sampleDiskA).sources ∧
      ∀ e ∈ (generateLockfileDoc sampleDiskA).sources,
        List.Sorted strLe e.skills ∧ List.Sorted strLe e.agents :=
  generateLockfile_deterministic_and_sorted sampleDiskA sampleDiskB
    (List.Forall₂.cons
      ⟨rfl, rfl, rfl, List.Perm.swap sampleEntryBeta sampleEntryAlpha [], by decide⟩
      List.Forall₂.nil)

theorem strData_ext {a b : String} (h : a.data = b.data) : a = b := by
  cases a
  cases b
  exact congrArg String.mk h

theorem append_bar_inj : ∀ {p₁ p₂ r₁ r₂ : List Char}, '|' ∉ p₁ → '|' ∉ p₂ →
    p₁ ++ '|' :: r₁ = p₂ ++ '|' :: r₂ → p₁ = p₂ ∧ r₁ = r₂ := by
  intro p₁
  induction p₁ with
  | nil =>
    intro p₂ r₁ r₂ _hp₁ hp₂ h
    cases p₂ with
    | nil => simpa using h
    | cons c₂ t₂ =>
      exfalso
      simp only [List.nil_append, List.cons_append, List.cons.injEq] at h
      exact hp₂ (by rw [h.1]; exact List.mem_cons_self _ _)
  | cons c₁ t₁ ih =>
    intro p₂ r₁ r₂ hp₁ hp₂ h
    cases p₂ with
    | nil =>
      exfalso
      simp only [List.nil_append, List.cons_append, List.cons.injEq] at h
      exact hp₁ (by rw [← h.1]; exact List.mem_cons_self _ _)
    | cons c₂ t₂ =>
      simp only [List.cons_append, List.cons.injEq] at h
      obtain ⟨hc, ht⟩ := h
      obtain ⟨h1, h2⟩ := ih (fun hm => hp₁ (List.mem_cons_of_mem _ hm))
        (fun hm => hp₂ (List.mem_cons_of_mem _ hm)) ht
      exact ⟨by rw [hc, h1], h2⟩

theorem groupKey_data (src : SourceInfo) :
    (groupKey src).data =
      src.type.data ++ '|' :: (src.url.data ++ '|' :: ((orEmpty src.ref).data ++ '|' ::
        ((orEmpty src.digest).data ++ '|' :: src.installMethod.data))) := by
  have hbar : ("|" : String).data = ['|'] := rfl
  simp [groupKey, joinWithBar, String.data_append, hbar, List.append_assoc,
    List.singleton_append]

theorem groupKey_inj_of_pipeFree {s t : SourceInfo} (hs : pipeFree s) (ht : pipeFree t)
    (h : groupKey s = groupKey t) : sourceTuple s = sourceTuple t := by
  have hd := congrArg String.data h
  rw [groupKey_data, groupKey_data] at hd
  obtain ⟨h1, hd⟩ := append_bar_inj hs.1 ht.1 hd
  obtain ⟨h2, hd⟩ := append_bar_inj hs.2.1 ht.2.1 hd
  obtain ⟨h3, hd⟩ := append_bar_inj hs.2.2.1 ht.2.2.1 hd
  obtain ⟨h4, h5⟩ := append_bar_inj hs.2.2.2.1 ht.2.2.2.1 hd
  unfold sourceTuple
  rw [strData_ext h1, strData_ext h2, strData_ext h3, strData_ext h4, strData_ext h5]

theorem groupKey_eq_of_tuple_eq {s t : SourceInfo}
    (h : sourceTuple s = sourceTuple t) : groupKey s = groupKey t := by
  unfold sourceTuple at h
  simp only [Prod.mk.injEq] at h
  obtain ⟨h1, h2, h3, h4, h5⟩ := h
  unfold groupKey
  rw [h1, h2, h3, h4, h5]

theorem lookupG_updateGroups_self (key : String) (s : InstalledSkill) :
    ∀ gs, lookupG key (updateGroups key s gs) =
      some (groupAddMember ((lookupG key gs).getD ⟨s.source, [], []⟩) s)
  | [] => by simp [updateGroups, lookupG]
  | (k, g) :: rest => by
    by_cases hk : k = key
    · subst hk
      simp [updateGroups, lookupG]
    · simp only [updateGroups, lookupG, if_neg hk]
      exact lookupG_updateGroups_self key s rest

theorem lookupG_updateGroups_other {key key2 : String} (hne : key2 ≠ key)
    (s : InstalledSkill) :
    ∀ gs, lookupG key2 (updateGroups key s gs) = lookupG key2 gs
  | [] => by
    simp only [updateGroups, lookupG]
    rw [if_neg fun h => hne h.symm]
  | (k, g) :: rest => by
    by_cases hk : k = key
    · subst hk
      simp only [updateGroups, if_pos rfl, lookupG]
      rw [if_neg fun h => hne h.symm, if_neg fun h => hne h.symm]
    · simp only [updateGroups, if_neg hk, lookupG]
      by_cases hk2 : k = key2
      · simp [hk2]
      · simp only [if_neg hk2]
        exact lookupG_updateGroups_other hne s rest

theorem foldl_groups_lookup_some (key : String) :
    ∀ (l : List InstalledSkill) (acc : List (String × SourceGroup)) (g : SourceGroup),
      lookupG key acc = some g →
      lookupG key (l.foldl (fun gs s => updateGroups (groupKey s.source) s gs) acc) =
        some ((l.filter fun s => groupKey s.source == key).foldl groupAddMember g)
  | [], acc, g, hacc => by simpa using hacc
  | s :: rest, acc, g, hacc => by
    simp only [List.foldl_cons]
    by_cases hks : groupKey s.source = key
    · subst hks
      have hupd := lookupG_updateGroups_self (groupKey s.source) s acc
      rw [hacc] at hupd
      simp only [Option.getD_some] at hupd
      have hrec := foldl_groups_lookup_some (groupKey s.source) rest
        (updateGroups (groupKey s.source) s acc) (groupAddMember g s) hupd
      rw [hrec, List.filter_cons_of_pos (by simp)]
      simp [List.foldl_cons]
    · have hupd := lookupG_updateGroups_other
        (show key ≠ groupKey s.source from fun hh => hks hh.symm) s acc
      have hrec := foldl_groups_lookup_some key rest
        (updateGroups (groupKey s.source) s acc) g (hupd.trans hacc)
      rw [hrec, List.filter_cons_of_neg (by simp [hks])]

theorem foldl_groups_lookup_none (key : String) :
    ∀ (l : List InstalledSkill) (acc : List (String × SourceGroup)),
      lookupG key acc = none →
      lookupG key (l.foldl (fun gs s => updateGroups (groupKey s.source) s gs) acc) =
        (match l.filter fun s => groupKey s.source == key with
          | [] => none
          | m :: ms => some (ms.foldl groupAddMember (groupAddMember ⟨m.source, [], []⟩ m)))
  | [], acc, hacc => by simpa using hacc
  | s :: rest, acc, hacc => by
    simp only [List.foldl_cons]
    by_cases hks : groupKey s.source = key
    · subst hks
      have hupd := lookupG_updateGroups_self (groupKey s.source) s acc
      rw [hacc] at hupd
      simp only [Option.getD_none] at hupd
      have hrec := foldl_groups_lookup_some (groupKey s.source) rest
        (updateGroups (groupKey s.source) s acc)
        (groupAddMember ⟨s.source, [], []⟩ s) hupd
      rw [hrec, List.filter_cons_of_pos (by simp)]
    · have hupd := lookupG_updateGroups_other
        (show key ≠ groupKey s.source from fun hh => hks hh.symm) s acc
      have hrec := foldl_groups_lookup_none key rest
        (updateGroups (groupKey s.source) s acc) (hupd.trans hacc)
      rw [hrec, List.filter_cons_of_neg (by simp [hks])]

theorem lookupG_groupInstalled (key : String) (l : List InstalledSkill) :
    lookupG key (groupInstalled l) =
      (match l.filter fun s => groupKey s.source == key with
        | [] => none
        | m :: ms => some (ms.foldl groupAddMember (groupAddMember ⟨m.source, [], []⟩ m))) :=
  foldl_groups_lookup_none key l [] rfl

theorem foldl_groupAddMember_source :
    ∀ (ms : List InstalledSkill) (g : SourceGroup),
      (ms.foldl groupAddMember g).source = g.source
  | [], _ => rfl
  | m :: ms, g => by
    simp only [List.foldl_cons]
    rw [foldl_groupAddMember_source ms]
    rfl

theorem mem_setAdd_self (x : String) (l : List String) : x ∈ setAdd x l := by
  unfold setAdd
  by_cases h : x ∈ l
  · simp [h]
  · simp [h]

theorem mem_setAdd_of_mem {x : String} (y : String) {l : List String} (h : x ∈ l) :
    x ∈ setAdd y l := by
  unfold setAdd
  by_cases hy : y ∈ l <;> simp [hy, h]

theorem mem_skills_foldl :
    ∀ (ms : List InstalledSkill) (g : SourceGroup) {x : String},
      (x ∈ g.skills ∨ ∃ m ∈ ms, m.skillName = x) →
      x ∈ (ms.foldl groupAddMember g).skills
  | [], _, _, h => by
    rcases h with hx | ⟨m, hm, _⟩
    · exact hx
    · cases hm
  | m :: ms, g, x, h => by
    simp only [List.foldl_cons]
    apply mem_skills_foldl ms (groupAddMember g m)
    rcases h with hx | ⟨m2, hm2, hname⟩
    · exact Or.inl (mem_setAdd_of_mem _ hx)
    · rcases List.mem_cons.mp hm2 with rfl | hm2tl
      · subst hname
        exact Or.inl (mem_setAdd_self _ _)
      · exact Or.inr ⟨m2, hm2tl, hname⟩

theorem lookupG_eq_some_mem {key : String} {g : SourceGroup} :
    ∀ {gs}, lookupG key gs = some g → (key, g) ∈ gs
  | [], h => by cases h
  | (k, g2) :: rest, h => by
    rw [show lookupG key ((k, g2) :: rest) =
      (if k = key then some g2 else lookupG key rest) from rfl] at h
    by_cases hk : k = key
    · rw [if_pos hk] at h
      obtain rfl := Option.some.inj h
      rw [hk]
      exact List.mem_cons_self _ _
    · rw [if_neg hk] at h
      exact List.mem_cons_of_mem _ (lookupG_eq_some_mem h)

theorem mem_lookupG_eq_some {key : String} {g : SourceGroup} :
    ∀ {gs}, (gs.map Prod.fst).Nodup → (key, g) ∈ gs → lookupG key gs = some g
  | [], _, h => by cases h
  | (k, g2) :: rest, hnd, h => by
    rcases List.mem_cons.mp h with heq | htl
    · have hk : key = k := congrArg Prod.fst heq
      have hg : g = g2 := congrArg Prod.snd heq
      subst hk
      subst hg
      simp [lookupG]
    · have hk : k ≠ key := by
        intro hkk
        subst hkk
        have hmem : k ∈ rest.map Prod.fst := List.mem_map.mpr ⟨(k, g), htl, rfl⟩
        simp only [List.map_cons, List.nodup_cons] at hnd
        exact hnd.1 hmem
      simp only [lookupG, if_neg hk]
      have hnd2 : (rest.map Prod.fst).Nodup := by
        simp only [List.map_cons, List.nodup_cons] at hnd
        exact hnd.2
      exact mem_lookupG_eq_some hnd2 htl

theorem lookupG_eq_none_iff {key : String} :
    ∀ {gs : List (String × SourceGroup)},
      lookupG key gs = none ↔ key ∉ gs.map Prod.fst
  | [] => by simp [lookupG]
  | (k, g) :: rest => by
    by_cases hk : k = key
    · subst hk
      simp [lookupG]
    · simp only [lookupG, if_neg hk, List.map_cons, List.mem_cons]
      rw [lookupG_eq_none_iff]
      constructor
      · rintro hn (hkey | hmem)
        · exact hk hkey.symm
        · exact hn hmem
      · intro hn hmem
        exact hn (Or.inr hmem)

theorem updateGroups_keys (key : String) (s : InstalledSkill) :
    ∀ gs, (updateGroups key s gs).map Prod.fst =
      if key ∈ gs.map Prod.fst then gs.map Prod.fst else gs.map Prod.fst ++ [key]
  | [] => by simp [updateGroups]
  | (k, g) :: rest => by
    by_cases hk : k = key
    · subst hk
      simp [updateGroups]
    · simp only [updateGroups, if_neg hk, List.map_cons]
      rw [updateGroups_keys key s rest]
      by_cases hmem : key ∈ rest.map Prod.fst
      · rw [if_pos hmem, if_pos (List.mem_cons_of_mem _ hmem)]
      · have hnot : key ∉ k :: rest.map Prod.fst := by
          simp only [List.mem_cons]
          rintro (hkey | hmem2)
          · exact hk hkey.symm
          · exact hmem hmem2
        rw [if_neg hmem, if_neg hnot, List.cons_append]

theorem updateGroups_keys_nodup (key : String) (s : InstalledSkill)
    {gs : List (String × SourceGroup)} (hnd : (gs.map Prod.fst).Nodup) :
    ((updateGroups key s gs).map Prod.fst).Nodup := by
  rw [updateGroups_keys]
  by_cases h : key ∈ gs.map Prod.fst
  · simpa [h] using hnd
  · rw [if_neg h]
    exact List.Nodup.append hnd (List.nodup_singleton key) (by simpa using h)

theorem foldl_groups_keys_nodup :
    ∀ (l : List InstalledSkill) (acc : List (String × SourceGroup)),
      (acc.map Prod.fst).Nodup →
      (((l.foldl (fun gs s => updateGroups (groupKey s.source) s gs) acc).map
        Prod.fst)).Nodup
  | [], _, hnd => hnd
  | s :: rest, acc, hnd => by
    simp only [List.foldl_cons]
    exact foldl_groups_keys_nodup rest _ (updateGroups_keys_nodup _ s hnd)

theorem groupInstalled_keys_nodup (l : List InstalledSkill) :
    ((groupInstalled l).map Prod.fst).Nodup :=
  foldl_groups_keys_nodup l [] List.nodup_nil

theorem orEmpty_truthy_if (o : Option String) :
    orEmpty (if truthy o then o else none) = orEmpty o := by
  cases o with
  | none => rfl
  | some s =>
    cases s with
    | mk data =>
      cases data with
      | nil => rfl
      | cons c cs => rfl

theorem entryTuple_normalizeGroup (g : SourceGroup) :
    entryTuple (normalizeGroup g) = sourceTuple g.source := by
  unfold entryTuple normalizeGroup sourceTuple
  simp [orEmpty_truthy_if]

theorem mem_lockSources_iff {installed : List InstalledSkill} {e : LockfileSource} :
    e ∈ lockSources installed ↔
      ∃ kg ∈ groupInstalled installed, e = normalizeGroup kg.2 := by
  unfold lockSources
  rw [(List.perm_insertionSort lockSourceLe _).mem_iff]
  simp only [List.mem_map]
  constructor
  · rintro ⟨kg, hkg, rfl⟩
    exact ⟨kg, hkg, rfl⟩
  · rintro ⟨kg, hkg, rfl⟩
    exact ⟨kg, hkg, rfl⟩

theorem group_mem_source_provenance {installed : List InstalledSkill} {k : String}
    {g : SourceGroup} (hkg : (k, g) ∈ groupInstalled installed) :
    ∃ m ∈ installed, groupKey m.source = k ∧ g.source = m.source ∧
      ∀ s ∈ installed, groupKey s.source = k → s.skillName ∈ g.skills := by
  have hnd := groupInstalled_keys_nodup installed
  have hlook := mem_lookupG_eq_some hnd hkg
  rw [lookupG_groupInstalled] at hlook
  cases hfil : installed.filter fun s => groupKey s.source == k with
  | nil =>
    rw [hfil] at hlook
    cases hlook
  | cons m ms =>
    rw [hfil] at hlook
    have hg : g = ms.foldl groupAddMember (groupAddMember ⟨m.source, [], []⟩ m) :=
      (Option.some.inj hlook).symm
    have hmfil : m ∈ installed.filter fun s => groupKey s.source == k := by
      rw [hfil]
      exact List.mem_cons_self _ _
    obtain ⟨hm, hmk⟩ := List.mem_filter.mp hmfil
    refine ⟨m, hm, by simpa using hmk, ?_, ?_⟩
    · rw [hg, foldl_groupAddMember_source]
      rfl
    · intro s hs hsk
      have hsfil : s ∈ installed.filter fun s2 => groupKey s2.source == k :=
        List.mem_filter.mpr ⟨hs, by simp [hsk]⟩
      rw [hfil] at hsfil
      rw [hg]
      apply mem_skills_foldl
      rcases List.mem_cons.mp hsfil with rfl | hstl
      · exact Or.inl (mem_setAdd_self s.skillName [])
      · exact Or.inr ⟨s, hstl, rfl⟩

theorem exists_group_of_mem {installed : List InstalledSkill} {a : InstalledSkill}
    (ha : a ∈ installed) :
    ∃ g, (groupKey a.source, g) ∈ groupInstalled installed := by
  cases hl : lookupG (groupKey a.source) (groupInstalled installed) with
  | some g => exact ⟨g, lookupG_eq_some_mem hl⟩
  | none =>
    exfalso
    rw [lookupG_groupInstalled] at hl
    have hmemf : a ∈ installed.filter fun s => groupKey s.source == groupKey a.source :=
      List.mem_filter.mpr ⟨ha, by simp⟩
    cases hfil : installed.filter fun s => groupKey s.source == groupKey a.source with
    | nil =>
      rw [hfil] at hmemf
      cases hmemf
    | cons m ms =>
      rw [hfil] at hl
      cases hl

/-- C3 counterexample: two installed skills whose provenance tuples differ —
`("a|b", "c", …)` versus `("a", "b|c", …)` — are nonetheless merged into a
single lock source entry listing both skill names, because the grouping key
joins the tuple with `|` without escaping. -/
theorem lockfile_grouping_key_collision :
    sourceTuple pipeSkillA.source ≠ sourceTuple pipeSkillB.source ∧
      (lockSources [pipeSkillA, pipeSkillB]).length = 1 ∧
      ∃ e ∈ lockSources [pipeSkillA, pipeSkillB],
        pipeSkillA.skillName ∈ e.skills ∧ pipeSkillB.skillName ∈ e.skills := by
  exact ⟨by decide, rfl, by decide⟩

/-- C3 (amended): grouping merges two installed skills into the same lock
entry exactly when their `|`-joined keys agree; provided no tuple component
contains the `|` join separator, this coincides with the claim: identical
`(type, url, ref, digest, installMethod)` tuples always merge into exactly
one lock source entry listing both skill names, and differing tuples always
produce separate entries. -/
theorem lockfile_grouping_iff_same_tuple
    (installed : List InstalledSkill)
    (hpf : ∀ s ∈ installed, pipeFree s.source)
    (a b : InstalledSkill) (ha : a ∈ installed) (hb : b ∈ installed) :
    (sourceTuple a.source = sourceTuple b.source ↔
        groupKey a.source = groupKey b.source) ∧
      ∃ e ∈ lockSources installed,
        entryTuple e = sourceTuple a.source ∧
        a.skillName ∈ e.skills ∧
        (∀ e2 ∈ lockSources installed, entryTuple e2 = sourceTuple a.source → e2 = e) ∧
        (sourceTuple a.source = sourceTuple b.source → b.skillName ∈ e.skills) := by
  constructor
  · exact ⟨groupKey_eq_of_tuple_eq,
      fun h => groupKey_inj_of_pipeFree (hpf a ha) (hpf b hb) h⟩
  · obtain ⟨G, hG⟩ := exists_group_of_mem ha
    obtain ⟨m, hm, hmk, hGsrc, hGskills⟩ := group_mem_source_provenance hG
    have htupm : sourceTuple m.source = sourceTuple a.source :=
      groupKey_inj_of_pipeFree (hpf m hm) (hpf a ha) hmk
    refine ⟨normalizeGroup G, mem_lockSources_iff.mpr ⟨_, hG, rfl⟩, ?_, ?_, ?_, ?_⟩
    · rw [entryTuple_normalizeGroup, hGsrc, htupm]
    · have hmem : a.skillName ∈ G.skills := hGskills a ha rfl
      exact (List.perm_insertionSort strLe _).mem_iff.mpr hmem
    · intro e2 he2 htup2
      rcases mem_lockSources_iff.mp he2 with ⟨⟨k2, g2⟩, hkg2, rfl⟩
      obtain ⟨m2, hm2, hm2k, hg2src, _⟩ := group_mem_source_provenance hkg2
      rw [entryTuple_normalizeGroup, hg2src] at htup2
      have hk2 : k2 = groupKey a.source := by
        rw [← hm2k, groupKey_eq_of_tuple_eq htup2]
      subst hk2
      have hnd := groupInstalled_keys_nodup installed
      have h1 := mem_lookupG_eq_some hnd hkg2
      have h2 := mem_lookupG_eq_some hnd hG
      rw [h1] at h2
      rw [Option.some.inj h2]
    · intro htupb
      have hkb : groupKey b.source = groupKey a.source :=
        groupKey_eq_of_tuple_eq htupb.symm
      have hmem : b.skillName ∈ G.skills := hGskills b hb hkb
      exact (List.perm_insertionSort strLe _).mem_iff.mpr hmem

theorem lockfile_grouping_iff_same_tuple_witness :
    (sourceTuple cleanSkill.source = sourceTuple cleanSkill.source ↔
        groupKey cleanSkill.source = groupKey cleanSkill.source) ∧
      ∃ e ∈ lockSources [cleanSkill],
        entryTuple e = sourceTuple cleanSkill.source ∧
        cleanSkill.skillName ∈ e.skills ∧
        (∀ e2 ∈ lockSources [cleanSkill], entryTuple e2 = sourceTuple cleanSkill.source →
          e2 = e) ∧
        (sourceTuple cleanSkill.source = sourceTuple cleanSkill.source →
          cleanSkill.skillName ∈ e.skills) :=
  lockfile_grouping_iff_same_tuple [cleanSkill] (by decide) cleanSkill cleanSkill
    (by decide) (by decide)

theorem installSkill_success_always_changed_witness :
    sampleInstallResult.changed = true ∧
      ((sampleInstallResult.method = InstallMethod.symlink ∧
          strStartsWith sampleInstallResult.message "symlinked" = true) ∨
        (sampleInstallResult.method = InstallMethod.copy ∧
          strStartsWith sampleInstallResult.message "copied" = true)) :=
  installSkill_success_always_changed sampleInstallEnv "0123456789abcdef"
    sampleInstallResult rfl

end Skillet
